import Mathlib

/-!
# filter_convex_hulls: the overlap filter of `main.cc`

A shallow embedding of `FilterConvexHulls` (src/filter_convex_hulls/main.cc, lines 36-72)
and the properties of its keep/eliminate rule.

* `Dbl` models the values of a C++ `double` under IEEE-754: the special values
  (signed zero, the infinities, NaN) behave as the standard says, and a finite
  value is a rational number. `Dbl.add` and `Dbl.div` give the exact result of an
  operation; `FilterConvexHulls` is embedded over them. `Dbl.round64` rounds an exact
  result to binary64, and `FilterConvexHullsIn` is the same function with the
  arithmetic explicit, so that it can be run in `Arith.binary64`.
* The header `filter_convex_hulls.h` is not part of the sources, so the two
  functions it provides, `GetArea` and `ConvexHullIntersection`, are parameters
  of the embedding.
-/

namespace FCH

/-! ## Doubles -/

/-- A value of a C++ `double`: `fin q` is the finite value `q` (`fin 0` is `+0`),
`nzero` is `-0`, `pinf` and `ninf` are the infinities and `nan` is NaN. -/
inductive Dbl where
  | fin (q : ℚ)
  | nzero
  | pinf
  | ninf
  | nan
deriving DecidableEq

namespace Dbl

/-- The literal `0` of the source: `+0`. -/
def zero : Dbl := fin 0

/-- The literal `.5` of the source. -/
def half : Dbl := fin (1 / 2)

/-- The sign bit of a value that is not NaN. -/
def signBit : Dbl → Bool
  | fin q => decide (q < 0)
  | nzero => true
  | pinf => false
  | ninf => true
  | nan => false

/-- Is the value NaN. -/
def isNaN : Dbl → Bool
  | nan => true
  | _ => false

/-- Is the value an infinity. -/
def isInf : Dbl → Bool
  | pinf => true
  | ninf => true
  | _ => false

/-- Is the value a zero, of either sign. -/
def isZero : Dbl → Bool
  | fin q => decide (q = 0)
  | nzero => true
  | _ => false

/-- The rational value of a finite double (both zeros are `0`; `0` elsewhere, unused). -/
def val : Dbl → ℚ
  | fin q => q
  | _ => 0

/-- The infinity with sign bit `s`. -/
def signedInf (s : Bool) : Dbl := if s then ninf else pinf

/-- The zero with sign bit `s`. -/
def signedZero (s : Bool) : Dbl := if s then nzero else fin 0

/-- The result of an IEEE-754 addition before it is rounded: the table of the special
values and of the signs of zero, and the exact sum of two finite values. -/
def add : Dbl → Dbl → Dbl
  | nan, _ => nan
  | _, nan => nan
  | pinf, ninf => nan
  | ninf, pinf => nan
  | pinf, _ => pinf
  | _, pinf => pinf
  | ninf, _ => ninf
  | _, ninf => ninf
  | nzero, nzero => nzero
  | nzero, fin q => fin q
  | fin q, nzero => fin q
  | fin p, fin q => fin (p + q)

/-- IEEE-754 negation. -/
def neg : Dbl → Dbl
  | fin q => if q = 0 then nzero else fin (-q)
  | nzero => fin 0
  | pinf => ninf
  | ninf => pinf
  | nan => nan

/-- IEEE-754 subtraction. -/
def sub (a b : Dbl) : Dbl := add a (neg b)

/-- IEEE-754 multiplication, exact on finite values. -/
def mul (a b : Dbl) : Dbl :=
  if a.isNaN || b.isNaN then nan
  else if a.isInf || b.isInf then
    (if a.isZero || b.isZero then nan else signedInf (xor a.signBit b.signBit))
  else if a.isZero || b.isZero then signedZero (xor a.signBit b.signBit)
  else fin (a.val * b.val)

/-- The result of an IEEE-754 division before it is rounded: a finite non-zero value
divided by a zero is an infinity, `0 / 0` and `inf / inf` are NaN, and the quotient
of two finite non-zero values is exact. -/
def div (a b : Dbl) : Dbl :=
  if a.isNaN || b.isNaN then nan
  else if a.isInf then
    (if b.isInf then nan else signedInf (xor a.signBit b.signBit))
  else if b.isInf then signedZero (xor a.signBit b.signBit)
  else if b.isZero then
    (if a.isZero then nan else signedInf (xor a.signBit b.signBit))
  else if a.isZero then signedZero (xor a.signBit b.signBit)
  else fin (a.val / b.val)

/-- IEEE-754 absolute value. -/
def abs : Dbl → Dbl
  | fin q => fin |q|
  | nzero => fin 0
  | pinf => pinf
  | ninf => pinf
  | nan => nan

/-- The comparison `a <= b` of C++: false as soon as one side is NaN, and the two
zeros compare equal. -/
def le : Dbl → Dbl → Bool
  | nan, _ => false
  | _, nan => false
  | ninf, _ => true
  | _, pinf => true
  | pinf, _ => false
  | _, ninf => false
  | a, b => decide (a.val ≤ b.val)

/-- The comparison `a < b` of C++. -/
def lt : Dbl → Dbl → Bool
  | nan, _ => false
  | _, nan => false
  | pinf, _ => false
  | _, ninf => false
  | ninf, _ => true
  | _, pinf => true
  | a, b => decide (a.val < b.val)

end Dbl

/-! ## Data model -/

/-- Modelled from the spec: the type `Point` of the absent header
`filter_convex_hulls.h`, a 2-D coordinate `{x, y}` of doubles. -/
structure Point where
  x : Dbl
  y : Dbl
deriving DecidableEq

/-- Modelled from the spec: the class `ConvexHull` of the absent header
`filter_convex_hulls.h`, an ordered vertex list and an integer ID, built by
`ConvexHull(vertices, ID)` in `main`. -/
structure ConvexHull where
  vertices : List Point
  id : Int
deriving DecidableEq

/-- The accessor `GetID()`. -/
def ConvexHull.GetID (h : ConvexHull) : Int := h.id

/-- The accessor `GetVertices()`. -/
def ConvexHull.GetVertices (h : ConvexHull) : List Point := h.vertices

/-- The type of `GetArea`, a function of the absent header. -/
abbrev AreaFn := ConvexHull → Dbl

/-- The type of `ConvexHullIntersection(ref, other, out)`, a function of the absent
header: `none` is the return value `false`, and `some h` is the return value `true`
with `h` left in the out-parameter `intersection_hull`. -/
abbrev IntersectFn := ConvexHull → ConvexHull → Option ConvexHull

/-! ## The filter -/

/-- The inner loop of `FilterConvexHulls` (lines 46-64): runs over `convex_hulls`
and accumulates `overlap_ratio` for the reference hull. -/
def overlapLoop (GetArea : AreaFn) (ConvexHullIntersection : IntersectFn)
    (convex_hull_ref : ConvexHull) : List ConvexHull → Dbl → Dbl
  | [], overlap_ratio => overlap_ratio
  | convex_hull :: rest, overlap_ratio =>
    if convex_hull_ref.GetID ≠ convex_hull.GetID then
      match ConvexHullIntersection convex_hull_ref convex_hull with
      | some intersection_hull =>
        let intersection_area := GetArea intersection_hull
        let convex_hull_area := GetArea convex_hull_ref
        overlapLoop GetArea ConvexHullIntersection convex_hull_ref rest
          (overlap_ratio.add (intersection_area.div convex_hull_area))
      | none => overlapLoop GetArea ConvexHullIntersection convex_hull_ref rest overlap_ratio
    else overlapLoop GetArea ConvexHullIntersection convex_hull_ref rest overlap_ratio

/-- The value of `overlap_ratio` at line 68 for the reference hull: the inner loop
run over the whole input from `overlap_ratio = 0` (line 43). -/
def overlapRatio (GetArea : AreaFn) (ConvexHullIntersection : IntersectFn)
    (convex_hulls : List ConvexHull) (convex_hull_ref : ConvexHull) : Dbl :=
  overlapLoop GetArea ConvexHullIntersection convex_hull_ref convex_hulls Dbl.zero

/-- The outer loop of `FilterConvexHulls` (lines 40-71) over the hulls not yet
visited; `convex_hulls` is the whole input and `filtered_convex_hulls` the output
vector so far. -/
def filterLoop (GetArea : AreaFn) (ConvexHullIntersection : IntersectFn)
    (convex_hulls : List ConvexHull) : List ConvexHull → List ConvexHull → List ConvexHull
  | [], filtered_convex_hulls => filtered_convex_hulls
  | convex_hull_ref :: rest, filtered_convex_hulls =>
    if (overlapRatio GetArea ConvexHullIntersection convex_hulls convex_hull_ref).le Dbl.half then
      filterLoop GetArea ConvexHullIntersection convex_hulls rest
        (filtered_convex_hulls ++ [convex_hull_ref])
    else
      filterLoop GetArea ConvexHullIntersection convex_hulls rest filtered_convex_hulls

/-- The function `FilterConvexHulls(convex_hulls, filtered_convex_hulls)`: the
result is the out-parameter `filtered_convex_hulls` after the call. -/
def FilterConvexHulls (GetArea : AreaFn) (ConvexHullIntersection : IntersectFn)
    (convex_hulls : List ConvexHull) (filtered_convex_hulls : List ConvexHull) :
    List ConvexHull :=
  filterLoop GetArea ConvexHullIntersection convex_hulls convex_hulls filtered_convex_hulls

/-! ## The filter with the arithmetic of doubles explicit

`Dbl.add` and `Dbl.div` give the result of an operation before it is rounded. The
operations of a C++ `double` round that result to binary64 (`Arith.binary64`); the
loops below are the loops of `FilterConvexHulls` again, with the arithmetic as a
parameter. -/

/-- The integer nearest to `s`, a tie going to the even one. -/
def roundHalfEven (s : ℚ) : ℤ :=
  if s - ⌊s⌋ < 1 / 2 then ⌊s⌋
  else if 1 / 2 < s - ⌊s⌋ then ⌊s⌋ + 1
  else if ⌊s⌋ % 2 = 0 then ⌊s⌋
  else ⌊s⌋ + 1

/-- The exponent of the binary64 spacing at the magnitude `a > 0`: 53 significant
bits from the leading bit of `a` on, and never below the spacing `2^-1074` of the
subnormal numbers. -/
def Dbl.quantumExp (a : ℚ) : ℤ := max (Int.log 2 a) (-1022) - 52

/-- Rounding of an exact result to binary64, to nearest and a tie to even: a
magnitude that rounds to `2^1024` or more overflows to an infinity, one that rounds
to zero gives the zero with the sign of the exact result. -/
def Dbl.round64 : Dbl → Dbl
  | Dbl.fin q =>
    if q = 0 then Dbl.fin 0
    else
      let r : ℚ := (roundHalfEven (|q| / 2 ^ Dbl.quantumExp |q|) : ℚ) * 2 ^ Dbl.quantumExp |q|
      if 2 ^ 1024 ≤ r then Dbl.signedInf (decide (q < 0))
      else if r = 0 then Dbl.signedZero (decide (q < 0))
      else Dbl.fin (if q < 0 then -r else r)
  | d => d

/-- The two operations on doubles that `FilterConvexHulls` performs, `+=` (line 61)
and `/` (line 61). -/
structure Arith where
  add : Dbl → Dbl → Dbl
  div : Dbl → Dbl → Dbl

/-- The arithmetic in which no operation rounds. -/
def Arith.unrounded : Arith := { add := Dbl.add, div := Dbl.div }

/-- The arithmetic of IEEE-754 binary64: every operation is the exact result,
rounded. -/
def Arith.binary64 : Arith :=
  { add := fun a b => (a.add b).round64, div := fun a b => (a.div b).round64 }

/-- The inner loop of `FilterConvexHulls` (lines 46-64) in the arithmetic `ar`. -/
def overlapLoopIn (ar : Arith) (GetArea : AreaFn) (ConvexHullIntersection : IntersectFn)
    (convex_hull_ref : ConvexHull) : List ConvexHull → Dbl → Dbl
  | [], overlap_ratio => overlap_ratio
  | convex_hull :: rest, overlap_ratio =>
    if convex_hull_ref.GetID ≠ convex_hull.GetID then
      match ConvexHullIntersection convex_hull_ref convex_hull with
      | some intersection_hull =>
        let intersection_area := GetArea intersection_hull
        let convex_hull_area := GetArea convex_hull_ref
        overlapLoopIn ar GetArea ConvexHullIntersection convex_hull_ref rest
          (ar.add overlap_ratio (ar.div intersection_area convex_hull_area))
      | none =>
        overlapLoopIn ar GetArea ConvexHullIntersection convex_hull_ref rest overlap_ratio
    else overlapLoopIn ar GetArea ConvexHullIntersection convex_hull_ref rest overlap_ratio

/-- The value of `overlap_ratio` at line 68 in the arithmetic `ar`. -/
def overlapRatioIn (ar : Arith) (GetArea : AreaFn) (ConvexHullIntersection : IntersectFn)
    (convex_hulls : List ConvexHull) (convex_hull_ref : ConvexHull) : Dbl :=
  overlapLoopIn ar GetArea ConvexHullIntersection convex_hull_ref convex_hulls Dbl.zero

/-- The outer loop of `FilterConvexHulls` (lines 40-71) in the arithmetic `ar`. -/
def filterLoopIn (ar : Arith) (GetArea : AreaFn) (ConvexHullIntersection : IntersectFn)
    (convex_hulls : List ConvexHull) : List ConvexHull → List ConvexHull → List ConvexHull
  | [], filtered_convex_hulls => filtered_convex_hulls
  | convex_hull_ref :: rest, filtered_convex_hulls =>
    if (overlapRatioIn ar GetArea ConvexHullIntersection convex_hulls convex_hull_ref).le
        Dbl.half then
      filterLoopIn ar GetArea ConvexHullIntersection convex_hulls rest
        (filtered_convex_hulls ++ [convex_hull_ref])
    else
      filterLoopIn ar GetArea ConvexHullIntersection convex_hulls rest filtered_convex_hulls

/-- The function `FilterConvexHulls` in the arithmetic `ar`. -/
def FilterConvexHullsIn (ar : Arith) (GetArea : AreaFn) (ConvexHullIntersection : IntersectFn)
    (convex_hulls : List ConvexHull) (filtered_convex_hulls : List ConvexHull) :
    List ConvexHull :=
  filterLoopIn ar GetArea ConvexHullIntersection convex_hulls convex_hulls
    filtered_convex_hulls

/-! ## The rule in the words of the specification -/

/-- What the pair `(R, O)` adds to the ratio of `R` in the words of the
specification (§4.3, step 2): `area(intersection) / area(R)` when `O.id ≠ R.id`
and the intersection is reported non-empty, nothing otherwise. -/
def specContribution (GetArea : AreaFn) (ConvexHullIntersection : IntersectFn)
    (R O : ConvexHull) : Option Dbl :=
  if O.id ≠ R.id then
    (ConvexHullIntersection R O).map (fun X => (GetArea X).div (GetArea R))
  else none

/-- The overlap ratio of `R` in the words of the specification: the sum, in input
order and starting from `0`, of the contributions of the elements of `P`. -/
def specOverlapRatio (GetArea : AreaFn) (ConvexHullIntersection : IntersectFn)
    (P : List ConvexHull) (R : ConvexHull) : Dbl :=
  (P.filterMap (specContribution GetArea ConvexHullIntersection R)).foldl Dbl.add Dbl.zero

/-- The filter in the words of the specification (§4.3, step 3): keep `R` when its
ratio is `≤ 0.5`. -/
def specFilter (GetArea : AreaFn) (ConvexHullIntersection : IntersectFn)
    (P : List ConvexHull) : List ConvexHull :=
  P.filter (fun R => (specOverlapRatio GetArea ConvexHullIntersection P R).le Dbl.half)

/-! ## Concrete geometry for the worked inputs -/

/-- Modelled from the spec: `GetArea` of the absent header `filter_convex_hulls.h`
(§4.1), the shoelace formula: the sum of `x_i*y_{i+1} - x_{i+1}*y_i` over
consecutive vertex pairs (indices mod the vertex count), in absolute value, halved;
`0` for fewer than 3 vertices. -/
def shoelaceArea : AreaFn := fun h =>
  if h.vertices.length < 3 then Dbl.zero
  else
    let next := h.vertices.drop 1 ++ h.vertices.take 1
    let s := (h.vertices.zip next).foldl
      (fun acc pq => acc.add ((pq.1.x.mul pq.2.y).sub (pq.2.x.mul pq.1.y))) Dbl.zero
    s.abs.div (Dbl.fin 2)

/-- The smaller of two doubles. -/
def Dbl.min (a b : Dbl) : Dbl := if b.lt a then b else a

/-- The larger of two doubles. -/
def Dbl.max (a b : Dbl) : Dbl := if a.lt b then b else a

/-- The axis-aligned bounding box `(xmin, ymin, xmax, ymax)` of a vertex list. -/
def boundingBox : List Point → Option (Dbl × Dbl × Dbl × Dbl)
  | [] => none
  | p :: ps =>
    some (ps.foldl
      (fun b q => (Dbl.min b.1 q.x, Dbl.min b.2.1 q.y, Dbl.max b.2.2.1 q.x, Dbl.max b.2.2.2 q.y))
      (p.x, p.y, p.x, p.y))

/-- An intersection function for the worked inputs, which are axis-aligned
rectangles: the overlap of the two bounding boxes, reported non-empty when the boxes
meet (the result carries the ID 0). On axis-aligned rectangles this is the
intersection polygon. -/
def boxIntersection : IntersectFn := fun a b =>
  match boundingBox a.vertices, boundingBox b.vertices with
  | some (ax0, ay0, ax1, ay1), some (bx0, by0, bx1, by1) =>
    let x0 := Dbl.max ax0 bx0
    let y0 := Dbl.max ay0 by0
    let x1 := Dbl.min ax1 bx1
    let y1 := Dbl.min ay1 by1
    if x0.le x1 && y0.le y1 then
      some { vertices := [⟨x0, y0⟩, ⟨x1, y0⟩, ⟨x1, y1⟩, ⟨x0, y1⟩], id := 0 }
    else none
  | _, _ => none

/-- The axis-aligned rectangle `(x0,y0)-(x1,y1)` with the given ID, counter-clockwise. -/
def rect (id : Int) (x0 y0 x1 y1 : ℚ) : ConvexHull :=
  { vertices := [⟨Dbl.fin x0, Dbl.fin y0⟩, ⟨Dbl.fin x1, Dbl.fin y0⟩,
                 ⟨Dbl.fin x1, Dbl.fin y1⟩, ⟨Dbl.fin x0, Dbl.fin y1⟩],
    id := id }

/-- The unit square `(0,0)-(1,1)`, ID 1. -/
def square1 : ConvexHull := rect 1 0 0 1 1

/-- The unit square `(0.5,0)-(1.5,1)`, ID 2. -/
def square2 : ConvexHull := rect 2 (1 / 2) 0 (3 / 2) 1

/-- The unit square `(2,2)-(3,3)`, ID 3. -/
def square3 : ConvexHull := rect 3 2 2 3 3

/-- Three collinear vertices inside `square1`, ID 7: a hull of area 0. -/
def flatHull : ConvexHull :=
  { vertices := [⟨Dbl.fin (1 / 4), Dbl.fin (1 / 2)⟩, ⟨Dbl.fin (1 / 2), Dbl.fin (1 / 2)⟩,
                 ⟨Dbl.fin (3 / 4), Dbl.fin (1 / 2)⟩],
    id := 7 }

/-- The double written `0.3` (`0x3FD3333333333333`): `5404319552844595 * 2^-54`. -/
def dbl03 : ℚ := 5404319552844595 / 2 ^ 54

/-- The rectangle `(0,-1)-(1,0.3)`, ID 2: it covers the lower 30% of `square1`. -/
def stripA : ConvexHull := rect 2 0 (-1) 1 dbl03

/-- The same rectangle `(0,-1)-(1,0.3)` under ID 3. -/
def stripB : ConvexHull := rect 3 0 (-1) 1 dbl03

/-- The rectangle `(-1,0)-(2^-60,1)`, ID 3: it covers a sliver of width `2^-60` of
`square1`. -/
def sliver : ConvexHull := rect 3 (-1) 0 (1 / 2 ^ 60) 1

/-- The rectangle `(0.25,0)-(1.25,1)`, ID 2: it covers 75% of `square1`. -/
def shifted : ConvexHull := rect 2 (1 / 4) 0 (5 / 4) 1

/-! # Theorems -/

/-! ## Arithmetic lemmas -/

namespace Dbl

@[simp] theorem add_fin_fin (p q : ℚ) : add (fin p) (fin q) = fin (p + q) := rfl

@[simp] theorem le_fin_fin (p q : ℚ) : le (fin p) (fin q) = decide (p ≤ q) := rfl

@[simp] theorem lt_fin_fin (p q : ℚ) : lt (fin p) (fin q) = decide (p < q) := rfl

@[simp] theorem add_nan_left (x : Dbl) : add nan x = nan := by
  cases x <;> rfl

@[simp] theorem le_nan_left (x : Dbl) : le nan x = false := by
  cases x <;> rfl

theorem le_zero_half : le zero half = true := by
  simp [zero, half]

theorem le_half_half : le half half = true := by
  simp [half]

/-- A value above `.5` fails the test `<= .5`. -/
theorem le_half_of_lt {r : Dbl} (h : lt half r = true) : le r half = false := by
  cases r <;> simp [lt, le, half, val] at h ⊢
  · linarith
  · norm_num at h

/-- Adding to `+0` does not change how a value compares. -/
theorem le_zero_add (x y : Dbl) : le (add zero x) y = le x y := by
  cases x <;> cases y <;> simp [add, le, zero, val]

/-- Division of finite values by a positive finite value is the exact quotient. -/
theorem div_fin_pos (a r : ℚ) (hr : 0 < r) : div (fin a) (fin r) = fin (a / r) := by
  have hr0 : r ≠ 0 := ne_of_gt hr
  have hr1 : ¬ r < 0 := not_lt.mpr hr.le
  by_cases ha : a = 0
  · subst ha
    simp [div, isNaN, isInf, isZero, signBit, signedZero, hr0, hr1]
  · simp [div, isNaN, isInf, isZero, signBit, val, hr0, ha]

/-- Division by a zero never gives a finite value or a zero: the quotient is NaN
or an infinity. -/
theorem div_zero_special (x d : Dbl) (hd : d.isZero = true) :
    div x d = nan ∨ div x d = pinf ∨ div x d = ninf := by
  cases d <;> simp [isZero] at hd
  · subst hd
    cases x <;> simp [div, isNaN, isInf, isZero, signBit, signedInf]
    · rename_i q
      by_cases h0 : q = 0
      · simp [h0]
      · by_cases h1 : q < 0 <;> simp [h0, h1]
  · cases x <;> simp [div, isNaN, isInf, isZero, signBit, signedInf]
    · rename_i q
      by_cases h0 : q = 0
      · simp [h0]
      · by_cases h1 : q < 0 <;> simp [h0, h1]

end Dbl

/-! ## The loops -/

/-- The inner loop is the left fold of the additions of the contributions. -/
theorem overlapLoop_eq_foldl (A : AreaFn) (I : IntersectFn) (R : ConvexHull)
    (P : List ConvexHull) (acc : Dbl) :
    overlapLoop A I R P acc = (P.filterMap (specContribution A I R)).foldl Dbl.add acc := by
  induction P generalizing acc with
  | nil => rfl
  | cons O rest ih =>
    by_cases hid : R.id = O.id
    · have hc : specContribution A I R O = none := by simp [specContribution, hid]
      simp [overlapLoop, ConvexHull.GetID, hid, List.filterMap_cons, hc, ih]
    · have hid2 : ¬ O.id = R.id := fun h => hid h.symm
      cases hI : I R O with
      | none =>
        have hc : specContribution A I R O = none := by simp [specContribution, hI]
        simp [overlapLoop, ConvexHull.GetID, hid, hI, List.filterMap_cons, hc, ih]
      | some X =>
        have hc : specContribution A I R O = some ((A X).div (A R)) := by
          simp [specContribution, hI, hid2]
        simp [overlapLoop, ConvexHull.GetID, hid, hI, List.filterMap_cons, hc, ih]

theorem overlapRatio_eq_spec (A : AreaFn) (I : IntersectFn) (P : List ConvexHull)
    (R : ConvexHull) : overlapRatio A I P R = specOverlapRatio A I P R :=
  overlapLoop_eq_foldl A I R P Dbl.zero

/-- The outer loop appends, in order, the hulls whose ratio passes `<= .5`. -/
theorem filterLoop_eq (A : AreaFn) (I : IntersectFn) (P L out : List ConvexHull) :
    filterLoop A I P L out = out ++ L.filter (fun R => (overlapRatio A I P R).le Dbl.half) := by
  induction L generalizing out with
  | nil => simp [filterLoop]
  | cons R rest ih =>
    by_cases h : (overlapRatio A I P R).le Dbl.half = true
    · simp [filterLoop, h, ih, List.filter_cons]
    · simp [filterLoop, h, ih, List.filter_cons]

theorem FilterConvexHulls_eq (A : AreaFn) (I : IntersectFn) (P out : List ConvexHull) :
    FilterConvexHulls A I P out
      = out ++ P.filter (fun R => (overlapRatio A I P R).le Dbl.half) :=
  filterLoop_eq A I P P out

/-- A hull that contributes nothing is skipped by the inner loop. -/
theorem overlapLoop_skip (A : AreaFn) (I : IntersectFn) (R O : ConvexHull)
    (rest : List ConvexHull) (acc : Dbl) (h : R.id = O.id ∨ I R O = none) :
    overlapLoop A I R (O :: rest) acc = overlapLoop A I R rest acc := by
  rcases h with h | h
  · simp [overlapLoop, ConvexHull.GetID, h]
  · by_cases hid : R.id = O.id
    · simp [overlapLoop, ConvexHull.GetID, hid]
    · simp [overlapLoop, ConvexHull.GetID, hid, h]

/-- A hull with another ID and a reported intersection adds its quotient. -/
theorem overlapLoop_step (A : AreaFn) (I : IntersectFn) (R O X : ConvexHull)
    (rest : List ConvexHull) (acc : Dbl) (hid : R.id ≠ O.id) (hI : I R O = some X) :
    overlapLoop A I R (O :: rest) acc
      = overlapLoop A I R rest (acc.add ((A X).div (A R))) := by
  simp [overlapLoop, ConvexHull.GetID, hid, hI]

/-- Over hulls that contribute nothing the inner loop returns its start value. -/
theorem overlapLoop_inert (A : AreaFn) (I : IntersectFn) (R : ConvexHull)
    (P : List ConvexHull) (acc : Dbl) (h : ∀ O ∈ P, R.id = O.id ∨ I R O = none) :
    overlapLoop A I R P acc = acc := by
  induction P with
  | nil => rfl
  | cons O rest ih =>
    rw [overlapLoop_skip A I R O rest acc (h O (by simp))]
    exact ih (fun O hO => h O (by simp [hO]))

/-! ## The filter as a list filter, and what is appended -/

/-- C1: for every input list `P`, `FilterConvexHulls` appends exactly the polygons
`R` of `P` whose overlap ratio, as the specification defines it (the sum over the
elements `O` with another ID and a reported intersection of
`area(intersection) / area(R)`), passes `<= 0.5`; the boundary is inclusive: a ratio
of exactly `0.5` keeps `R`, and a ratio above `0.5` eliminates it. -/
theorem FilterConvexHulls_keeps_iff_ratio_le_half (GetArea : AreaFn)
    (ConvexHullIntersection : IntersectFn) (P out : List ConvexHull) :
    FilterConvexHulls GetArea ConvexHullIntersection P out
        = out ++ specFilter GetArea ConvexHullIntersection P
    ∧ (∀ R, R ∈ FilterConvexHulls GetArea ConvexHullIntersection P [] ↔
        R ∈ P ∧ (specOverlapRatio GetArea ConvexHullIntersection P R).le Dbl.half = true)
    ∧ (∀ R ∈ P, specOverlapRatio GetArea ConvexHullIntersection P R = Dbl.half →
        R ∈ FilterConvexHulls GetArea ConvexHullIntersection P [])
    ∧ (∀ R, Dbl.half.lt (specOverlapRatio GetArea ConvexHullIntersection P R) = true →
        R ∉ FilterConvexHulls GetArea ConvexHullIntersection P []) := by
  have hfun : (fun R => (overlapRatio GetArea ConvexHullIntersection P R).le Dbl.half)
      = (fun R => (specOverlapRatio GetArea ConvexHullIntersection P R).le Dbl.half) := by
    funext R
    rw [overlapRatio_eq_spec]
  have hmem : ∀ R, R ∈ FilterConvexHulls GetArea ConvexHullIntersection P [] ↔
      R ∈ P ∧ (specOverlapRatio GetArea ConvexHullIntersection P R).le Dbl.half = true := by
    intro R
    rw [FilterConvexHulls_eq, hfun]
    simp [List.mem_filter]
  refine ⟨?_, hmem, ?_, ?_⟩
  · rw [FilterConvexHulls_eq, hfun]
    rfl
  · intro R hR hhalf
    rw [hmem, hhalf]
    exact ⟨hR, Dbl.le_half_half⟩
  · intro R hlt hin
    rw [hmem] at hin
    rw [Dbl.le_half_of_lt hlt] at hin
    exact Bool.false_ne_true hin.2

/-- C2: for every input list `P`, what `FilterConvexHulls` appends to the output
vector is an order-preserving subsequence of `P`: every appended polygon is an
element of `P` (ID and vertex list as in `P`), none is appended more often than it
occurs in `P`, and the relative order is that of `P`. -/
theorem FilterConvexHulls_appends_sublist (GetArea : AreaFn)
    (ConvexHullIntersection : IntersectFn) (P out : List ConvexHull) :
    ∃ kept : List ConvexHull,
      FilterConvexHulls GetArea ConvexHullIntersection P out = out ++ kept
      ∧ kept.Sublist P
      ∧ (∀ R ∈ kept, R ∈ P)
      ∧ (∀ R, kept.count R ≤ P.count R) := by
  refine ⟨P.filter (fun R => (overlapRatio GetArea ConvexHullIntersection P R).le Dbl.half),
    FilterConvexHulls_eq _ _ _ _, List.filter_sublist _, ?_, ?_⟩
  · intro R hR
    exact (List.mem_filter.mp hR).1
  · intro R
    exact (List.filter_sublist _).count_le R


/-! ## The worked inputs, evaluated -/

theorem area_unit (i : Int) : shoelaceArea (rect i 0 0 1 1) = Dbl.fin 1 := by
  norm_num [shoelaceArea, rect, Dbl.mul, Dbl.sub, Dbl.add, Dbl.neg, Dbl.abs, Dbl.div,
    Dbl.isNaN, Dbl.isInf, Dbl.isZero, Dbl.signBit, Dbl.val, Dbl.zero, Dbl.signedZero]

theorem area_square2 : shoelaceArea square2 = Dbl.fin 1 := by
  norm_num [shoelaceArea, square2, rect, Dbl.mul, Dbl.sub, Dbl.add, Dbl.neg, Dbl.abs, Dbl.div,
    Dbl.isNaN, Dbl.isInf, Dbl.isZero, Dbl.signBit, Dbl.val, Dbl.zero, Dbl.signedZero]

theorem area_square3 : shoelaceArea square3 = Dbl.fin 1 := by
  norm_num [shoelaceArea, square3, rect, Dbl.mul, Dbl.sub, Dbl.add, Dbl.neg, Dbl.abs, Dbl.div,
    Dbl.isNaN, Dbl.isInf, Dbl.isZero, Dbl.signBit, Dbl.val, Dbl.zero, Dbl.signedZero]

theorem area_shifted (i : Int) : shoelaceArea (rect i (1 / 4) 0 (5 / 4) 1) = Dbl.fin 1 := by
  norm_num [shoelaceArea, rect, Dbl.mul, Dbl.sub, Dbl.add, Dbl.neg, Dbl.abs, Dbl.div,
    Dbl.isNaN, Dbl.isInf, Dbl.isZero, Dbl.signBit, Dbl.val, Dbl.zero, Dbl.signedZero]

theorem area_flatHull : shoelaceArea flatHull = Dbl.fin 0 := by
  norm_num [shoelaceArea, flatHull, Dbl.mul, Dbl.sub, Dbl.add, Dbl.neg, Dbl.abs, Dbl.div,
    Dbl.isNaN, Dbl.isInf, Dbl.isZero, Dbl.signBit, Dbl.val, Dbl.zero, Dbl.signedZero]

theorem area_flatBox : shoelaceArea (rect 0 (1 / 4) (1 / 2) (3 / 4) (1 / 2)) = Dbl.fin 0 := by
  norm_num [shoelaceArea, rect, Dbl.mul, Dbl.sub, Dbl.add, Dbl.neg, Dbl.abs, Dbl.div,
    Dbl.isNaN, Dbl.isInf, Dbl.isZero, Dbl.signBit, Dbl.val, Dbl.zero, Dbl.signedZero]

theorem area_halfBox : shoelaceArea (rect 0 (1 / 2) 0 1 1) = Dbl.fin (1 / 2) := by
  norm_num [shoelaceArea, rect, Dbl.mul, Dbl.sub, Dbl.add, Dbl.neg, Dbl.abs, Dbl.div,
    Dbl.isNaN, Dbl.isInf, Dbl.isZero, Dbl.signBit, Dbl.val, Dbl.zero, Dbl.signedZero]

theorem area_threeQuarterBox : shoelaceArea (rect 0 (1 / 4) 0 1 1) = Dbl.fin (3 / 4) := by
  norm_num [shoelaceArea, rect, Dbl.mul, Dbl.sub, Dbl.add, Dbl.neg, Dbl.abs, Dbl.div,
    Dbl.isNaN, Dbl.isInf, Dbl.isZero, Dbl.signBit, Dbl.val, Dbl.zero, Dbl.signedZero]
  rw [abs_of_pos (by norm_num)]
  norm_num

theorem inter_square1_square2 : boxIntersection square1 square2 = some (rect 0 (1 / 2) 0 1 1) := by
  norm_num [boxIntersection, boundingBox, square1, square2, rect, Dbl.min, Dbl.max]

theorem inter_square2_square1 : boxIntersection square2 square1 = some (rect 0 (1 / 2) 0 1 1) := by
  norm_num [boxIntersection, boundingBox, square1, square2, rect, Dbl.min, Dbl.max]

theorem inter_square1_square3 : boxIntersection square1 square3 = none := by
  norm_num [boxIntersection, boundingBox, square1, square3, rect, Dbl.min, Dbl.max]

theorem inter_square3_square1 : boxIntersection square3 square1 = none := by
  norm_num [boxIntersection, boundingBox, square1, square3, rect, Dbl.min, Dbl.max]

theorem inter_square2_square3 : boxIntersection square2 square3 = none := by
  norm_num [boxIntersection, boundingBox, square2, square3, rect, Dbl.min, Dbl.max]

theorem inter_square3_square2 : boxIntersection square3 square2 = none := by
  norm_num [boxIntersection, boundingBox, square2, square3, rect, Dbl.min, Dbl.max]

theorem inter_square1_shifted :
    boxIntersection square1 shifted = some (rect 0 (1 / 4) 0 1 1) := by
  norm_num [boxIntersection, boundingBox, square1, shifted, rect, Dbl.min, Dbl.max]

theorem inter_shifted_square1 :
    boxIntersection shifted square1 = some (rect 0 (1 / 4) 0 1 1) := by
  norm_num [boxIntersection, boundingBox, square1, shifted, rect, Dbl.min, Dbl.max]

theorem inter_shifted_square3 : boxIntersection shifted square3 = none := by
  norm_num [boxIntersection, boundingBox, shifted, square3, rect, Dbl.min, Dbl.max]

theorem inter_square3_shifted : boxIntersection square3 shifted = none := by
  norm_num [boxIntersection, boundingBox, shifted, square3, rect, Dbl.min, Dbl.max]

theorem inter_flatHull_square1 :
    boxIntersection flatHull square1 = some (rect 0 (1 / 4) (1 / 2) (3 / 4) (1 / 2)) := by
  norm_num [boxIntersection, boundingBox, square1, flatHull, rect, Dbl.min, Dbl.max]

theorem inter_square1_flatHull :
    boxIntersection square1 flatHull = some (rect 0 (1 / 4) (1 / 2) (3 / 4) (1 / 2)) := by
  norm_num [boxIntersection, boundingBox, square1, flatHull, rect, Dbl.min, Dbl.max]

/-! ## The claims on inputs without intersections and on IDs -/

/-- Over an input none of whose hulls contributes, the ratio is `+0`. -/
theorem overlapRatio_zero_of_inert (A : AreaFn) (I : IntersectFn) (P : List ConvexHull)
    (R : ConvexHull) (h : ∀ O ∈ P, R.id = O.id ∨ I R O = none) :
    overlapRatio A I P R = Dbl.zero :=
  overlapLoop_inert A I R P Dbl.zero h

/-- When every hull of the input has ratio `+0`, all of them are appended. -/
theorem FilterConvexHulls_all_of_zero (A : AreaFn) (I : IntersectFn) (P out : List ConvexHull)
    (h : ∀ R ∈ P, overlapRatio A I P R = Dbl.zero) :
    FilterConvexHulls A I P out = out ++ P := by
  rw [FilterConvexHulls_eq]
  congr 1
  apply List.filter_eq_self.mpr
  intro R hR
  rw [h R hR]
  exact Dbl.le_zero_half

/-- C7: a pair for which `ConvexHullIntersection` reports no intersection leaves
the ratio unchanged; for every input list in which no two elements with different
IDs are reported to intersect, every polygon has ratio `0` and `FilterConvexHulls`
appends the whole list, in order; so it does for the empty list and for a single
polygon. -/
theorem no_intersection_keeps_all (GetArea : AreaFn) (ConvexHullIntersection : IntersectFn)
    (P out : List ConvexHull)
    (h : ∀ R ∈ P, ∀ O ∈ P, R.id ≠ O.id → ConvexHullIntersection R O = none) :
    (∀ R O rest r, ConvexHullIntersection R O = none →
        overlapLoop GetArea ConvexHullIntersection R (O :: rest) r
          = overlapLoop GetArea ConvexHullIntersection R rest r)
    ∧ (∀ R ∈ P, overlapRatio GetArea ConvexHullIntersection P R = Dbl.fin 0)
    ∧ FilterConvexHulls GetArea ConvexHullIntersection P out = out ++ P
    ∧ FilterConvexHulls GetArea ConvexHullIntersection [] out = out
    ∧ (∀ R, FilterConvexHulls GetArea ConvexHullIntersection [R] out = out ++ [R]) := by
  have hz : ∀ R ∈ P, overlapRatio GetArea ConvexHullIntersection P R = Dbl.zero := by
    intro R hR
    apply overlapRatio_zero_of_inert
    intro O hO
    by_cases hid : R.id = O.id
    · exact Or.inl hid
    · exact Or.inr (h R hR O hO hid)
  refine ⟨?_, hz, FilterConvexHulls_all_of_zero _ _ _ _ hz, ?_, ?_⟩
  · intro R O rest r hnone
    exact overlapLoop_skip _ _ R O rest r (Or.inr hnone)
  · simp [FilterConvexHulls, filterLoop]
  · intro R
    apply FilterConvexHulls_all_of_zero
    intro R1 hR1
    apply overlapRatio_zero_of_inert
    intro O hO
    simp only [List.mem_singleton] at hR1 hO
    exact Or.inl (by rw [hR1, hO])

/-- C7 at a concrete input: the disjoint squares `(0,0)-(1,1)` and `(2,2)-(3,3)`. -/
theorem no_intersection_keeps_all_witness :
    boxIntersection square1 square3 = none ∧ boxIntersection square3 square1 = none
    ∧ overlapRatio shoelaceArea boxIntersection [square1, square3] square1 = Dbl.fin 0
    ∧ FilterConvexHulls shoelaceArea boxIntersection [square1, square3] []
        = [square1, square3] := by
  have h := no_intersection_keeps_all shoelaceArea boxIntersection [square1, square3] []
    (by
      intro R hR O hO hid
      simp only [List.mem_cons, List.mem_singleton, List.not_mem_nil, or_false] at hR hO
      rcases hR with rfl | rfl <;> rcases hO with rfl | rfl
      · exact absurd rfl hid
      · exact inter_square1_square3
      · exact inter_square3_square1
      · exact absurd rfl hid)
  exact ⟨inter_square1_square3, inter_square3_square1, h.2.1 square1 (by simp),
    by simpa using h.2.2.1⟩

/-- Hulls with the ID of the reference never change the running ratio. -/
theorem overlapLoop_filter_ne (A : AreaFn) (I : IntersectFn) (R : ConvexHull)
    (P : List ConvexHull) (acc : Dbl) :
    overlapLoop A I R P acc
      = overlapLoop A I R (P.filter (fun O => decide (O.id ≠ R.id))) acc := by
  induction P generalizing acc with
  | nil => rfl
  | cons O rest ih =>
    by_cases hid : O.id = R.id
    · rw [overlapLoop_skip A I R O rest acc (Or.inl hid.symm), ih]
      simp [List.filter_cons, hid]
    · have hf : (O :: rest).filter (fun O => decide (O.id ≠ R.id))
          = O :: rest.filter (fun O => decide (O.id ≠ R.id)) := by
        simp [List.filter_cons, hid]
      rw [hf]
      have hid2 : ¬ R.id = O.id := fun h => hid h.symm
      cases hI : I R O with
      | none =>
        rw [overlapLoop_skip A I R O _ acc (Or.inr hI),
          overlapLoop_skip A I R O _ acc (Or.inr hI), ih]
      | some X =>
        rw [overlapLoop_step A I R O X _ acc hid2 hI,
          overlapLoop_step A I R O X _ acc hid2 hI, ih]

/-- C10: exclusion is by ID value: an element whose ID equals the ID of the
reference polygon `R` never adds to the ratio of `R`, whatever its vertices and its
position in the list, so the ratio of `R` is the ratio computed over the elements
with another ID only; hence for every input list in which all polygons share one ID,
`FilterConvexHulls` appends the whole list unchanged, whatever the overlaps. -/
theorem same_id_never_contributes (GetArea : AreaFn) (ConvexHullIntersection : IntersectFn) :
    (∀ R O rest r, O.id = R.id →
        overlapLoop GetArea ConvexHullIntersection R (O :: rest) r
          = overlapLoop GetArea ConvexHullIntersection R rest r)
    ∧ (∀ P R, overlapRatio GetArea ConvexHullIntersection P R
        = overlapRatio GetArea ConvexHullIntersection
            (P.filter (fun O => decide (O.id ≠ R.id))) R)
    ∧ (∀ P out, (∀ X ∈ P, ∀ Y ∈ P, X.id = Y.id) →
        (∀ R ∈ P, overlapRatio GetArea ConvexHullIntersection P R = Dbl.fin 0)
        ∧ FilterConvexHulls GetArea ConvexHullIntersection P out = out ++ P) := by
  refine ⟨?_, ?_, ?_⟩
  · intro R O rest r hid
    exact overlapLoop_skip _ _ R O rest r (Or.inl hid.symm)
  · intro P R
    exact overlapLoop_filter_ne _ _ R P Dbl.zero
  · intro P out hsame
    have hz : ∀ R ∈ P, overlapRatio GetArea ConvexHullIntersection P R = Dbl.zero := by
      intro R hR
      apply overlapRatio_zero_of_inert
      intro O hO
      exact Or.inl (hsame R hR O hO)
    exact ⟨hz, FilterConvexHulls_all_of_zero _ _ _ _ hz⟩

/-- C10 at a concrete input: the squares `(0,0)-(1,1)` and `(0.25,0)-(1.25,1)`
overlap by 75% of each, share the ID 5, and are both kept. -/
theorem same_id_never_contributes_witness :
    boxIntersection (rect 5 0 0 1 1) (rect 5 (1 / 4) 0 (5 / 4) 1)
        = some (rect 0 (1 / 4) 0 1 1)
    ∧ FilterConvexHulls shoelaceArea boxIntersection
        [rect 5 0 0 1 1, rect 5 (1 / 4) 0 (5 / 4) 1] []
      = [rect 5 0 0 1 1, rect 5 (1 / 4) 0 (5 / 4) 1] := by
  refine ⟨?_, ?_⟩
  · norm_num [boxIntersection, boundingBox, rect, Dbl.min, Dbl.max]
  · have h := ((same_id_never_contributes shoelaceArea boxIntersection).2.2
      [rect 5 0 0 1 1, rect 5 (1 / 4) 0 (5 / 4) 1] []
      (by
        intro X hX Y hY
        simp only [List.mem_cons, List.mem_singleton, List.not_mem_nil, or_false] at hX hY
        rcases hX with rfl | rfl <;> rcases hY with rfl | rfl <;> rfl)).2
    simpa using h

/-! ## The claims on two-element inputs -/

/-- The ratio of the first hull of a two-element input. -/
theorem overlapRatio_pair_fst (A : AreaFn) (I : IntersectFn) (a b X : ConvexHull)
    (hid : a.id ≠ b.id) (hab : I a b = some X) :
    overlapRatio A I [a, b] a = Dbl.zero.add ((A X).div (A a)) := by
  unfold overlapRatio
  rw [overlapLoop_skip A I a a [b] Dbl.zero (Or.inl rfl), overlapLoop_step A I a b X [] _ hid hab]
  rfl

/-- The ratio of the second hull of a two-element input. -/
theorem overlapRatio_pair_snd (A : AreaFn) (I : IntersectFn) (a b Y : ConvexHull)
    (hid : a.id ≠ b.id) (hba : I b a = some Y) :
    overlapRatio A I [a, b] b = Dbl.zero.add ((A Y).div (A b)) := by
  unfold overlapRatio
  rw [overlapLoop_step A I b a Y [b] _ (fun h => hid h.symm) hba,
    overlapLoop_skip A I b b [] _ (Or.inl rfl)]
  rfl

/-- C4: the decision for each polygon is computed against the unfiltered input: for
two polygons `a` and `b` with different IDs and positive areas whose intersection is
reported non-empty in both directions, with `area(a ∩ b) / area(a) > 0.5` and
`area(b ∩ a) / area(b) > 0.5`, `FilterConvexHulls` eliminates both (it appends
nothing), although each of the two alone would be kept. -/
theorem mutual_overlap_eliminates_both (GetArea : AreaFn)
    (ConvexHullIntersection : IntersectFn) (a b X Y : ConvexHull) (out : List ConvexHull)
    (hid : a.id ≠ b.id)
    (_ha : Dbl.zero.lt (GetArea a) = true) (_hb : Dbl.zero.lt (GetArea b) = true)
    (hab : ConvexHullIntersection a b = some X) (hba : ConvexHullIntersection b a = some Y)
    (hra : Dbl.half.lt ((GetArea X).div (GetArea a)) = true)
    (hrb : Dbl.half.lt ((GetArea Y).div (GetArea b)) = true) :
    FilterConvexHulls GetArea ConvexHullIntersection [a, b] out = out
    ∧ FilterConvexHulls GetArea ConvexHullIntersection [a] out = out ++ [a]
    ∧ FilterConvexHulls GetArea ConvexHullIntersection [b] out = out ++ [b] := by
  have h1 : (overlapRatio GetArea ConvexHullIntersection [a, b] a).le Dbl.half = false := by
    rw [overlapRatio_pair_fst _ _ a b X hid hab, Dbl.le_zero_add]
    exact Dbl.le_half_of_lt hra
  have h2 : (overlapRatio GetArea ConvexHullIntersection [a, b] b).le Dbl.half = false := by
    rw [overlapRatio_pair_snd _ _ a b Y hid hba, Dbl.le_zero_add]
    exact Dbl.le_half_of_lt hrb
  have hone : ∀ c : ConvexHull,
      FilterConvexHulls GetArea ConvexHullIntersection [c] out = out ++ [c] := by
    intro c
    apply FilterConvexHulls_all_of_zero
    intro R hR
    apply overlapRatio_zero_of_inert
    intro O hO
    simp only [List.mem_singleton] at hR hO
    exact Or.inl (by rw [hR, hO])
  refine ⟨?_, hone a, hone b⟩
  rw [FilterConvexHulls_eq]
  simp [List.filter_cons, h1, h2]

/-- C4 at a concrete input: the unit squares `(0,0)-(1,1)` and `(0.25,0)-(1.25,1)`
overlap by 75% of each, and both are eliminated. -/
theorem mutual_overlap_eliminates_both_witness :
    boxIntersection square1 shifted = some (rect 0 (1 / 4) 0 1 1)
    ∧ boxIntersection shifted square1 = some (rect 0 (1 / 4) 0 1 1)
    ∧ (shoelaceArea (rect 0 (1 / 4) 0 1 1)).div (shoelaceArea square1) = Dbl.fin (3 / 4)
    ∧ FilterConvexHulls shoelaceArea boxIntersection [square1, shifted] [] = []
    ∧ FilterConvexHulls shoelaceArea boxIntersection [square1] [] = [square1]
    ∧ FilterConvexHulls shoelaceArea boxIntersection [shifted] [] = [shifted] := by
  have hq : (shoelaceArea (rect 0 (1 / 4) 0 1 1)).div (shoelaceArea square1)
      = Dbl.fin (3 / 4) := by
    rw [area_threeQuarterBox, show square1 = rect 1 0 0 1 1 from rfl, area_unit,
      Dbl.div_fin_pos _ _ one_pos]
    norm_num
  have hq2 : (shoelaceArea (rect 0 (1 / 4) 0 1 1)).div (shoelaceArea shifted)
      = Dbl.fin (3 / 4) := by
    rw [area_threeQuarterBox, show shifted = rect 2 (1 / 4) 0 (5 / 4) 1 from rfl, area_shifted,
      Dbl.div_fin_pos _ _ one_pos]
    norm_num
  have h := mutual_overlap_eliminates_both shoelaceArea boxIntersection square1 shifted
    (rect 0 (1 / 4) 0 1 1) (rect 0 (1 / 4) 0 1 1) []
    (by decide)
    (by rw [show square1 = rect 1 0 0 1 1 from rfl, area_unit]; simp [Dbl.zero])
    (by rw [show shifted = rect 2 (1 / 4) 0 (5 / 4) 1 from rfl, area_shifted]; simp [Dbl.zero])
    inter_square1_shifted inter_shifted_square1
    (by rw [hq]; norm_num [Dbl.half])
    (by rw [hq2]; norm_num [Dbl.half])
  exact ⟨inter_square1_shifted, inter_shifted_square1, hq, h.1, by simpa using h.2.1,
    by simpa using h.2.2⟩

/-- C6: for three unit squares `s1`, `s2`, `s3` with distinct IDs (the squares
`(0,0)-(1,1)`, `(0.5,0)-(1.5,1)` and `(2,2)-(3,3)` of the scenario; only the first
two IDs need to differ), each of area `1`, where the first two are reported to
intersect in a region of area `0.5` in both directions and the third intersects
neither, `FilterConvexHulls` computes the ratios `0.5`, `0.5` and `0` and appends
all three squares in their input order. -/
theorem three_squares_all_kept (GetArea : AreaFn) (ConvexHullIntersection : IntersectFn)
    (s1 s2 s3 X Y : ConvexHull) (hid : s1.id ≠ s2.id)
    (h1 : GetArea s1 = Dbl.fin 1) (h2 : GetArea s2 = Dbl.fin 1)
    (_h3 : GetArea s3 = Dbl.fin 1)
    (h12 : ConvexHullIntersection s1 s2 = some X) (hX : GetArea X = Dbl.fin (1 / 2))
    (h21 : ConvexHullIntersection s2 s1 = some Y) (hY : GetArea Y = Dbl.fin (1 / 2))
    (h13 : ConvexHullIntersection s1 s3 = none)
    (h31 : ConvexHullIntersection s3 s1 = none)
    (h23 : ConvexHullIntersection s2 s3 = none)
    (h32 : ConvexHullIntersection s3 s2 = none) :
    overlapRatio GetArea ConvexHullIntersection [s1, s2, s3] s1 = Dbl.fin (1 / 2)
    ∧ overlapRatio GetArea ConvexHullIntersection [s1, s2, s3] s2 = Dbl.fin (1 / 2)
    ∧ overlapRatio GetArea ConvexHullIntersection [s1, s2, s3] s3 = Dbl.fin 0
    ∧ FilterConvexHulls GetArea ConvexHullIntersection [s1, s2, s3] [] = [s1, s2, s3] := by
  have r1 : overlapRatio GetArea ConvexHullIntersection [s1, s2, s3] s1
      = Dbl.fin (1 / 2) := by
    unfold overlapRatio
    rw [overlapLoop_skip _ _ s1 s1 _ _ (Or.inl rfl),
      overlapLoop_step _ _ s1 s2 X _ _ hid h12,
      overlapLoop_skip _ _ s1 s3 _ _ (Or.inr h13), hX, h1,
      Dbl.div_fin_pos _ _ one_pos]
    simp [overlapLoop, Dbl.zero]
  have r2 : overlapRatio GetArea ConvexHullIntersection [s1, s2, s3] s2
      = Dbl.fin (1 / 2) := by
    unfold overlapRatio
    rw [overlapLoop_step _ _ s2 s1 Y _ _ (fun h => hid h.symm) h21,
      overlapLoop_skip _ _ s2 s2 _ _ (Or.inl rfl),
      overlapLoop_skip _ _ s2 s3 _ _ (Or.inr h23), hY, h2,
      Dbl.div_fin_pos _ _ one_pos]
    simp [overlapLoop, Dbl.zero]
  have r3 : overlapRatio GetArea ConvexHullIntersection [s1, s2, s3] s3 = Dbl.fin 0 := by
    unfold overlapRatio
    rw [overlapLoop_skip _ _ s3 s1 _ _ (Or.inr h31),
      overlapLoop_skip _ _ s3 s2 _ _ (Or.inr h32),
      overlapLoop_skip _ _ s3 s3 _ _ (Or.inl rfl)]
    rfl
  have l1 : (overlapRatio GetArea ConvexHullIntersection [s1, s2, s3] s1).le Dbl.half
      = true := by
    rw [r1]
    exact Dbl.le_half_half
  have l2 : (overlapRatio GetArea ConvexHullIntersection [s1, s2, s3] s2).le Dbl.half
      = true := by
    rw [r2]
    exact Dbl.le_half_half
  have l3 : (overlapRatio GetArea ConvexHullIntersection [s1, s2, s3] s3).le Dbl.half
      = true := by
    rw [r3]
    exact Dbl.le_zero_half
  refine ⟨r1, r2, r3, ?_⟩
  rw [FilterConvexHulls_eq]
  simp [List.filter_cons, l1, l2, l3]

/-- C6 at the squares of the scenario, `(0,0)-(1,1)`, `(0.5,0)-(1.5,1)` and
`(2,2)-(3,3)` with the IDs 1, 2, 3, under the shoelace area and the rectangle
intersection: the hypotheses hold, and all three are kept. -/
theorem three_squares_all_kept_witness :
    shoelaceArea square1 = Dbl.fin 1 ∧ shoelaceArea square2 = Dbl.fin 1
    ∧ shoelaceArea square3 = Dbl.fin 1
    ∧ boxIntersection square1 square2 = some (rect 0 (1 / 2) 0 1 1)
    ∧ shoelaceArea (rect 0 (1 / 2) 0 1 1) = Dbl.fin (1 / 2)
    ∧ overlapRatio shoelaceArea boxIntersection [square1, square2, square3] square1
        = Dbl.fin (1 / 2)
    ∧ FilterConvexHulls shoelaceArea boxIntersection [square1, square2, square3] []
        = [square1, square2, square3] := by
  have h := three_squares_all_kept shoelaceArea boxIntersection square1 square2 square3
    (rect 0 (1 / 2) 0 1 1) (rect 0 (1 / 2) 0 1 1) (by decide)
    (area_unit 1) area_square2 area_square3
    inter_square1_square2 area_halfBox inter_square2_square1 area_halfBox
    inter_square1_square3 inter_square3_square1 inter_square2_square3 inter_square3_square2
  exact ⟨area_unit 1, area_square2, area_square3, inter_square1_square2, area_halfBox,
    h.1, h.2.2.2⟩

/-! ## The filter in an explicit arithmetic -/

/-- The inner loop of `FilterConvexHulls` is the loop in the unrounded arithmetic. -/
theorem overlapLoop_eq_overlapLoopIn (A : AreaFn) (I : IntersectFn) (R : ConvexHull)
    (P : List ConvexHull) (acc : Dbl) :
    overlapLoop A I R P acc = overlapLoopIn Arith.unrounded A I R P acc := by
  induction P generalizing acc with
  | nil => rfl
  | cons O rest ih =>
    by_cases hid : R.id = O.id
    · simp [overlapLoop, overlapLoopIn, ConvexHull.GetID, hid, ih]
    · cases hI : I R O <;>
        simp [overlapLoop, overlapLoopIn, ConvexHull.GetID, hid, hI, ih, Arith.unrounded]

/-- The outer loop of `FilterConvexHulls` is the loop in the unrounded arithmetic. -/
theorem filterLoop_eq_filterLoopIn (A : AreaFn) (I : IntersectFn)
    (P L out : List ConvexHull) :
    filterLoop A I P L out = filterLoopIn Arith.unrounded A I P L out := by
  induction L generalizing out with
  | nil => rfl
  | cons R rest ih =>
    have hr : overlapRatio A I P R = overlapRatioIn Arith.unrounded A I P R :=
      overlapLoop_eq_overlapLoopIn A I R P Dbl.zero
    simp [filterLoop, filterLoopIn, hr, ih]

/-- `FilterConvexHulls` is `FilterConvexHullsIn` in the unrounded arithmetic. -/
theorem FilterConvexHulls_eq_FilterConvexHullsIn (A : AreaFn) (I : IntersectFn)
    (P out : List ConvexHull) :
    FilterConvexHulls A I P out = FilterConvexHullsIn Arith.unrounded A I P out :=
  filterLoop_eq_filterLoopIn A I P P out

theorem overlapLoopIn_nil (ar : Arith) (A : AreaFn) (I : IntersectFn) (R : ConvexHull)
    (acc : Dbl) : overlapLoopIn ar A I R [] acc = acc := rfl

theorem overlapLoopIn_skip (ar : Arith) (A : AreaFn) (I : IntersectFn) (R O : ConvexHull)
    (rest : List ConvexHull) (acc : Dbl) (h : R.id = O.id ∨ I R O = none) :
    overlapLoopIn ar A I R (O :: rest) acc = overlapLoopIn ar A I R rest acc := by
  rcases h with h | h
  · simp [overlapLoopIn, ConvexHull.GetID, h]
  · by_cases hid : R.id = O.id
    · simp [overlapLoopIn, ConvexHull.GetID, hid]
    · simp [overlapLoopIn, ConvexHull.GetID, hid, h]

theorem overlapLoopIn_step (ar : Arith) (A : AreaFn) (I : IntersectFn) (R O X : ConvexHull)
    (rest : List ConvexHull) (acc : Dbl) (hid : R.id ≠ O.id) (hI : I R O = some X) :
    overlapLoopIn ar A I R (O :: rest) acc
      = overlapLoopIn ar A I R rest (ar.add acc (ar.div (A X) (A R))) := by
  simp [overlapLoopIn, ConvexHull.GetID, hid, hI]

theorem overlapLoopIn_inert (ar : Arith) (A : AreaFn) (I : IntersectFn) (R : ConvexHull)
    (P : List ConvexHull) (acc : Dbl) (h : ∀ O ∈ P, R.id = O.id ∨ I R O = none) :
    overlapLoopIn ar A I R P acc = acc := by
  induction P with
  | nil => rfl
  | cons O rest ih =>
    rw [overlapLoopIn_skip ar A I R O rest acc (h O (by simp))]
    exact ih (fun O hO => h O (by simp [hO]))

theorem overlapLoopIn_append (ar : Arith) (A : AreaFn) (I : IntersectFn) (R : ConvexHull)
    (P Q : List ConvexHull) (acc : Dbl) :
    overlapLoopIn ar A I R (P ++ Q) acc
      = overlapLoopIn ar A I R Q (overlapLoopIn ar A I R P acc) := by
  induction P generalizing acc with
  | nil => rfl
  | cons O rest ih =>
    by_cases hid : R.id = O.id
    · simp [overlapLoopIn, ConvexHull.GetID, hid, ih]
    · cases hI : I R O <;> simp [overlapLoopIn, ConvexHull.GetID, hid, hI, ih]

theorem filterLoopIn_eq (ar : Arith) (A : AreaFn) (I : IntersectFn)
    (P L out : List ConvexHull) :
    filterLoopIn ar A I P L out
      = out ++ L.filter (fun R => (overlapRatioIn ar A I P R).le Dbl.half) := by
  induction L generalizing out with
  | nil => simp [filterLoopIn]
  | cons R rest ih =>
    by_cases h : (overlapRatioIn ar A I P R).le Dbl.half = true
    · simp [filterLoopIn, h, ih, List.filter_cons]
    · simp [filterLoopIn, h, ih, List.filter_cons]

theorem FilterConvexHullsIn_eq (ar : Arith) (A : AreaFn) (I : IntersectFn)
    (P out : List ConvexHull) :
    FilterConvexHullsIn ar A I P out
      = out ++ P.filter (fun R => (overlapRatioIn ar A I P R).le Dbl.half) :=
  filterLoopIn_eq ar A I P P out

/-! ## Rounding to binary64, evaluated -/

/-- The integer `n` is the rounding of every `s` less than half a unit above it. -/
theorem roundHalfEven_of_lt_half (s : ℚ) (n : ℤ) (h1 : (n : ℚ) ≤ s) (h2 : s < n + 1 / 2) :
    roundHalfEven s = n := by
  have hfl : ⌊s⌋ = n := by
    rw [Int.floor_eq_iff]
    exact ⟨h1, by linarith⟩
  unfold roundHalfEven
  rw [hfl, if_pos (by linarith)]

/-- The binary logarithm, rounded down, of a magnitude in `[2^e, 2^(e+1))`. -/
theorem log_two_eq (a : ℚ) (e : ℤ) (h1 : (2 : ℚ) ^ e ≤ a) (h2 : a < (2 : ℚ) ^ (e + 1)) :
    Int.log 2 a = e := by
  have ha : 0 < a := lt_of_lt_of_le (zpow_pos (by norm_num) e) h1
  apply le_antisymm
  · have h := (Int.lt_zpow_iff_log_lt (R := ℚ) (b := 2) (x := e + 1) (by norm_num) ha).mp
      (by exact_mod_cast h2)
    omega
  · exact (Int.zpow_le_iff_le_log (R := ℚ) (b := 2) (by norm_num) ha).mp
      (by exact_mod_cast h1)

/-- The rounding to binary64 of a positive value `q` in the binade `[2^e, 2^(e+1))`
of the normal range, `q` being less than half a spacing above `n * 2^(e-52)`. -/
theorem round64_fin_pos (q : ℚ) (e n : ℤ) (hemin : -1022 ≤ e)
    (h1 : (2 : ℚ) ^ e ≤ q) (h2 : q < (2 : ℚ) ^ (e + 1))
    (hn1 : (n : ℚ) ≤ q / 2 ^ (e - 52)) (hn2 : q / 2 ^ (e - 52) < n + 1 / 2)
    (hn0 : 0 < n) (hmax : (n : ℚ) * 2 ^ (e - 52) < 2 ^ 1024) :
    Dbl.round64 (Dbl.fin q) = Dbl.fin (n * 2 ^ (e - 52)) := by
  have hq : 0 < q := lt_of_lt_of_le (zpow_pos (by norm_num) e) h1
  have hqe : Dbl.quantumExp |q| = e - 52 := by
    unfold Dbl.quantumExp
    rw [abs_of_pos hq, log_two_eq q e h1 h2, max_eq_left hemin]
  have hr : roundHalfEven (|q| / 2 ^ (e - 52)) = n := by
    rw [abs_of_pos hq]
    exact roundHalfEven_of_lt_half _ n hn1 hn2
  have hpos : (0 : ℚ) < (n : ℚ) * 2 ^ (e - 52) :=
    mul_pos (by exact_mod_cast hn0) (zpow_pos (by norm_num) _)
  unfold Dbl.round64
  simp only [hqe, hr]
  rw [if_neg (ne_of_gt hq), if_neg (not_le.mpr hmax), if_neg (ne_of_gt hpos),
    if_neg (not_lt.mpr hq.le)]

theorem round64_half : Dbl.round64 (Dbl.fin (1 / 2)) = Dbl.fin (1 / 2) := by
  have h := round64_fin_pos (1 / 2) (-1) (2 ^ 52) (by norm_num) (by norm_num) (by norm_num)
    (by norm_num) (by norm_num) (by norm_num) (by norm_num)
  rw [h]
  norm_num

theorem round64_two_pow_neg_sixty :
    Dbl.round64 (Dbl.fin (1 / 2 ^ 60)) = Dbl.fin (1 / 2 ^ 60) := by
  have h := round64_fin_pos (1 / 2 ^ 60) (-60) (2 ^ 52) (by norm_num) (by norm_num)
    (by norm_num) (by norm_num) (by norm_num) (by norm_num) (by norm_num)
  rw [h]
  norm_num

/-- The sum `0.5 + 2^-60` is not a double: it rounds to `0.5`. -/
theorem round64_half_add_tiny :
    Dbl.round64 (Dbl.fin (1 / 2 + 1 / 2 ^ 60)) = Dbl.fin (1 / 2) := by
  have h := round64_fin_pos (1 / 2 + 1 / 2 ^ 60) (-1) (2 ^ 52) (by norm_num) (by norm_num)
    (by norm_num) (by norm_num) (by norm_num) (by norm_num) (by norm_num)
  rw [h]
  norm_num

theorem round64_dbl03 : Dbl.round64 (Dbl.fin dbl03) = Dbl.fin dbl03 := by
  have h := round64_fin_pos dbl03 (-2) 5404319552844595 (by norm_num)
    (by norm_num [dbl03]) (by norm_num [dbl03]) (by norm_num [dbl03]) (by norm_num [dbl03])
    (by norm_num) (by norm_num)
  rw [h]
  norm_num [dbl03]

theorem round64_two_dbl03 : Dbl.round64 (Dbl.fin (dbl03 + dbl03)) = Dbl.fin (2 * dbl03) := by
  have h := round64_fin_pos (dbl03 + dbl03) (-1) 5404319552844595 (by norm_num)
    (by norm_num [dbl03]) (by norm_num [dbl03]) (by norm_num [dbl03]) (by norm_num [dbl03])
    (by norm_num) (by norm_num)
  rw [h]
  norm_num [dbl03]

/-! ## The linear sum -/

theorem binary64_add_fin (p q : ℚ) :
    Arith.binary64.add (Dbl.fin p) (Dbl.fin q) = Dbl.round64 (Dbl.fin (p + q)) := rfl

theorem binary64_div_one (q : ℚ) :
    Arith.binary64.div (Dbl.fin q) (Dbl.fin 1) = Dbl.round64 (Dbl.fin q) := by
  show Dbl.round64 ((Dbl.fin q).div (Dbl.fin 1)) = Dbl.round64 (Dbl.fin q)
  rw [Dbl.div_fin_pos _ _ one_pos, div_one]

theorem inter_square1_stripA :
    boxIntersection square1 stripA = some (rect 0 0 0 1 dbl03) := by
  norm_num [boxIntersection, boundingBox, square1, stripA, rect, Dbl.min, Dbl.max, dbl03]

theorem inter_square1_stripB :
    boxIntersection square1 stripB = some (rect 0 0 0 1 dbl03) := by
  norm_num [boxIntersection, boundingBox, square1, stripB, rect, Dbl.min, Dbl.max, dbl03]

theorem area_stripBox : shoelaceArea (rect 0 0 0 1 dbl03) = Dbl.fin dbl03 := by
  norm_num [shoelaceArea, rect, Dbl.mul, Dbl.sub, Dbl.add, Dbl.neg, Dbl.abs, Dbl.div,
    Dbl.isNaN, Dbl.isInf, Dbl.isZero, Dbl.signBit, Dbl.val, Dbl.zero, Dbl.signedZero, dbl03]
  rw [abs_of_pos (by norm_num)]
  norm_num

theorem inter_square1_sliver :
    boxIntersection square1 sliver = some (rect 0 0 0 (1 / 2 ^ 60) 1) := by
  norm_num [boxIntersection, boundingBox, square1, sliver, rect, Dbl.min, Dbl.max]

theorem area_sliverBox : shoelaceArea (rect 0 0 0 (1 / 2 ^ 60) 1) = Dbl.fin (1 / 2 ^ 60) := by
  norm_num [shoelaceArea, rect, Dbl.mul, Dbl.sub, Dbl.add, Dbl.neg, Dbl.abs, Dbl.div,
    Dbl.isNaN, Dbl.isInf, Dbl.isZero, Dbl.signBit, Dbl.val, Dbl.zero, Dbl.signedZero]
  rw [abs_of_pos (by norm_num)]
  norm_num

/-- In binary64 the double sum of twice the quotient `0.3 / 1` is the double `0.6`. -/
theorem binary64_sum_strips :
    Arith.binary64.add
        (Arith.binary64.add Dbl.zero
          (Arith.binary64.div (shoelaceArea (rect 0 0 0 1 dbl03)) (shoelaceArea square1)))
        (Arith.binary64.div (shoelaceArea (rect 0 0 0 1 dbl03)) (shoelaceArea square1))
      = Dbl.fin (2 * dbl03) := by
  rw [area_stripBox, show square1 = rect 1 0 0 1 1 from rfl, area_unit, binary64_div_one,
    round64_dbl03, Dbl.zero, binary64_add_fin, zero_add, round64_dbl03, binary64_add_fin,
    round64_two_dbl03]

/-- In binary64 the double sum of the quotients `0.5 / 1` and `2^-60 / 1` is `0.5`. -/
theorem binary64_sum_sliver :
    Arith.binary64.add
        (Arith.binary64.add Dbl.zero
          (Arith.binary64.div (shoelaceArea (rect 0 (1 / 2) 0 1 1)) (shoelaceArea square1)))
        (Arith.binary64.div (shoelaceArea (rect 0 0 0 (1 / 2 ^ 60) 1)) (shoelaceArea square1))
      = Dbl.fin (1 / 2) := by
  rw [area_halfBox, area_sliverBox, show square1 = rect 1 0 0 1 1 from rfl, area_unit,
    binary64_div_one, binary64_div_one, round64_half, round64_two_pow_neg_sixty, Dbl.zero,
    binary64_add_fin, zero_add, round64_half, binary64_add_fin, round64_half_add_tiny]

/-- C8, as the code has it: the ratio is the linear sum of the pairwise quotients,
not a measure of the union: for a reference polygon `R` and two polygons `O1`, `O2`
with other IDs whose intersections with `R` are reported non-empty, every other
element of the input adding nothing, the ratio of `R` is the sum
`(0 + area(X1)/area(R)) + area(X2)/area(R)` computed in the arithmetic of doubles,
each operation rounded, whatever the two intersection regions are, and `R` is kept
exactly when that sum passes `<= 0.5`; this holds in every arithmetic, binary64
included. And there is an input in which `O1` and `O2` cover the same 30% of `R`
(one and the same intersection region) and `R` is eliminated with the ratio `0.6`,
in binary64. -/
theorem ratio_is_linear_sum (ar : Arith) (GetArea : AreaFn)
    (ConvexHullIntersection : IntersectFn)
    (R O1 O2 X1 X2 : ConvexHull) (P0 P1 P2 : List ConvexHull)
    (hid1 : R.id ≠ O1.id) (hid2 : R.id ≠ O2.id)
    (h1 : ConvexHullIntersection R O1 = some X1)
    (h2 : ConvexHullIntersection R O2 = some X2)
    (hrest : ∀ O ∈ P0 ++ P1 ++ P2, R.id = O.id ∨ ConvexHullIntersection R O = none)
    (hR : R ∈ P0 ++ P1 ++ P2) :
    overlapRatioIn ar GetArea ConvexHullIntersection (P0 ++ O1 :: (P1 ++ O2 :: P2)) R
        = ar.add (ar.add Dbl.zero (ar.div (GetArea X1) (GetArea R)))
            (ar.div (GetArea X2) (GetArea R))
    ∧ (R ∈ FilterConvexHullsIn ar GetArea ConvexHullIntersection
          (P0 ++ O1 :: (P1 ++ O2 :: P2)) []
        ↔ (ar.add (ar.add Dbl.zero (ar.div (GetArea X1) (GetArea R)))
            (ar.div (GetArea X2) (GetArea R))).le Dbl.half = true)
    ∧ (∃ (A : AreaFn) (I : IntersectFn) (S Oa Ob Z : ConvexHull),
        I S Oa = some Z ∧ I S Ob = some Z
        ∧ A S = Dbl.fin 1 ∧ A Z = Dbl.fin dbl03
        ∧ overlapRatioIn Arith.binary64 A I [S, Oa, Ob] S = Dbl.fin (2 * dbl03)
        ∧ S ∉ FilterConvexHullsIn Arith.binary64 A I [S, Oa, Ob] []) := by
  have hrest0 : ∀ O ∈ P0, R.id = O.id ∨ ConvexHullIntersection R O = none :=
    fun O hO => hrest O (by simp [hO])
  have hrest1 : ∀ O ∈ P1, R.id = O.id ∨ ConvexHullIntersection R O = none :=
    fun O hO => hrest O (by simp [hO])
  have hrest2 : ∀ O ∈ P2, R.id = O.id ∨ ConvexHullIntersection R O = none :=
    fun O hO => hrest O (by simp [hO])
  have e1 : overlapRatioIn ar GetArea ConvexHullIntersection (P0 ++ O1 :: (P1 ++ O2 :: P2)) R
      = ar.add (ar.add Dbl.zero (ar.div (GetArea X1) (GetArea R)))
          (ar.div (GetArea X2) (GetArea R)) := by
    unfold overlapRatioIn
    rw [overlapLoopIn_append, overlapLoopIn_inert _ _ _ R P0 _ hrest0,
      overlapLoopIn_step _ _ _ R O1 X1 _ _ hid1 h1, overlapLoopIn_append,
      overlapLoopIn_inert _ _ _ R P1 _ hrest1, overlapLoopIn_step _ _ _ R O2 X2 _ _ hid2 h2,
      overlapLoopIn_inert _ _ _ R P2 _ hrest2]
  have hmem : R ∈ P0 ++ O1 :: (P1 ++ O2 :: P2) := by
    simp only [List.mem_append, List.mem_cons] at hR ⊢
    tauto
  refine ⟨e1, ?_, ?_⟩
  · rw [FilterConvexHullsIn_eq, List.nil_append, List.mem_filter, e1]
    exact ⟨fun h => h.2, fun h => ⟨hmem, h⟩⟩
  · have rr : overlapRatioIn Arith.binary64 shoelaceArea boxIntersection
        [square1, stripA, stripB] square1 = Dbl.fin (2 * dbl03) := by
      unfold overlapRatioIn
      rw [overlapLoopIn_skip _ _ _ square1 square1 _ _ (Or.inl rfl),
        overlapLoopIn_step _ _ _ square1 stripA _ _ _ (by decide) inter_square1_stripA,
        overlapLoopIn_step _ _ _ square1 stripB _ _ _ (by decide) inter_square1_stripB,
        overlapLoopIn_nil]
      exact binary64_sum_strips
    refine ⟨shoelaceArea, boxIntersection, square1, stripA, stripB, rect 0 0 0 1 dbl03,
      inter_square1_stripA, inter_square1_stripB, area_unit 1, area_stripBox, rr, ?_⟩
    rw [FilterConvexHullsIn_eq, List.nil_append, List.mem_filter, rr]
    norm_num [Dbl.half, dbl03]

/-- C8 at a concrete input, in binary64: the unit square `(0,0)-(1,1)` and two
copies, under the IDs 2 and 3, of the rectangle `(0,-1)-(1,0.3)`: each covers the
same 30% of the square, the ratio is the double `0.6`, and the square is
eliminated. -/
theorem ratio_is_linear_sum_witness :
    boxIntersection square1 stripA = some (rect 0 0 0 1 dbl03)
    ∧ boxIntersection square1 stripB = some (rect 0 0 0 1 dbl03)
    ∧ shoelaceArea (rect 0 0 0 1 dbl03) = Dbl.fin dbl03
    ∧ overlapRatioIn Arith.binary64 shoelaceArea boxIntersection [square1, stripA, stripB]
        square1 = Dbl.fin (2 * dbl03)
    ∧ square1 ∉ FilterConvexHullsIn Arith.binary64 shoelaceArea boxIntersection
        [square1, stripA, stripB] [] := by
  have h := ratio_is_linear_sum Arith.binary64 shoelaceArea boxIntersection square1 stripA
    stripB (rect 0 0 0 1 dbl03) (rect 0 0 0 1 dbl03) [square1] [] []
    (by decide) (by decide) inter_square1_stripA inter_square1_stripB
    (by
      intro O hO
      simp only [List.append_nil, List.mem_singleton] at hO
      exact Or.inl (by rw [hO]))
    (by simp)
  refine ⟨inter_square1_stripA, inter_square1_stripB, area_stripBox,
    h.1.trans binary64_sum_strips, ?_⟩
  intro hin
  have h3 := h.2.1.mp hin
  rw [binary64_sum_strips] at h3
  norm_num [Dbl.half, dbl03] at h3

/-- C8 fails as stated: for the unit square `(0,0)-(1,1)` with the square
`(0.5,0)-(1.5,1)` (intersection of area `0.5`) and the rectangle `(-1,0)-(2^-60,1)`
(intersection of area `2^-60`), the code computes in binary64 `0 + 0.5/1 = 0.5` and
`0.5 + 2^-60/1 = 0.5`: the ratio is `0.5`, not `(a1 + a2) / area(R) = 0.5 + 2^-60`,
and the unit square is kept although `(a1 + a2) / area(R) > 0.5`. -/
theorem linear_sum_is_rounded :
    shoelaceArea square1 = Dbl.fin 1
    ∧ boxIntersection square1 square2 = some (rect 0 (1 / 2) 0 1 1)
    ∧ shoelaceArea (rect 0 (1 / 2) 0 1 1) = Dbl.fin (1 / 2)
    ∧ boxIntersection square1 sliver = some (rect 0 0 0 (1 / 2 ^ 60) 1)
    ∧ shoelaceArea (rect 0 0 0 (1 / 2 ^ 60) 1) = Dbl.fin (1 / 2 ^ 60)
    ∧ overlapRatioIn Arith.binary64 shoelaceArea boxIntersection [square1, square2, sliver]
        square1 = Dbl.fin (1 / 2)
    ∧ overlapRatioIn Arith.binary64 shoelaceArea boxIntersection [square1, square2, sliver]
        square1 ≠ Dbl.fin ((1 / 2 + 1 / 2 ^ 60) / 1)
    ∧ ¬ ((1 / 2 + 1 / 2 ^ 60 : ℚ) / 1 ≤ 1 / 2)
    ∧ square1 ∈ FilterConvexHullsIn Arith.binary64 shoelaceArea boxIntersection
        [square1, square2, sliver] [] := by
  have rr : overlapRatioIn Arith.binary64 shoelaceArea boxIntersection
      [square1, square2, sliver] square1 = Dbl.fin (1 / 2) := by
    unfold overlapRatioIn
    rw [overlapLoopIn_skip _ _ _ square1 square1 _ _ (Or.inl rfl),
      overlapLoopIn_step _ _ _ square1 square2 _ _ _ (by decide) inter_square1_square2,
      overlapLoopIn_step _ _ _ square1 sliver _ _ _ (by decide) inter_square1_sliver,
      overlapLoopIn_nil]
    exact binary64_sum_sliver
  refine ⟨area_unit 1, inter_square1_square2, area_halfBox, inter_square1_sliver,
    area_sliverBox, rr, ?_, by norm_num, ?_⟩
  · rw [rr]
    intro h
    have h2 := Dbl.fin.inj h
    norm_num at h2
  · rw [FilterConvexHullsIn_eq, List.nil_append, List.mem_filter, rr]
    exact ⟨by simp, Dbl.le_half_half⟩

/-! ## Arithmetic and loop lemmas for zero areas and sublists -/

namespace Dbl

@[simp] theorem add_nan_right (x : Dbl) : add x nan = nan := by
  cases x <;> rfl

/-- Adding NaN or an infinity to any value gives NaN or an infinity. -/
theorem add_special_right (a : Dbl) {c : Dbl} (hc : c = nan ∨ c = pinf ∨ c = ninf) :
    add a c = nan ∨ add a c = pinf ∨ add a c = ninf := by
  rcases hc with rfl | rfl | rfl <;> cases a <;> simp [add]

/-- Adding NaN or `+inf` to any value gives NaN or `+inf`. -/
theorem add_nan_or_pinf_right (a : Dbl) {c : Dbl} (hc : c = nan ∨ c = pinf) :
    add a c = nan ∨ add a c = pinf := by
  rcases hc with rfl | rfl <;> cases a <;> simp [add]

/-- A value that is `>= +0` or NaN, divided by `+0`, is NaN or `+inf`. -/
theorem div_pzero_nan_or_pinf {x : Dbl} (hx : x.isNaN = true ∨ zero.le x = true) :
    div x (fin 0) = nan ∨ div x (fin 0) = pinf := by
  cases x with
  | fin q =>
    rcases hx with hx | hx
    · simp [isNaN] at hx
    · simp only [zero, le_fin_fin, decide_eq_true_eq] at hx
      by_cases h0 : q = 0
      · simp [div, isNaN, isInf, isZero, h0]
      · have h1 : ¬ q < 0 := not_lt.mpr hx
        simp [div, isNaN, isInf, isZero, signBit, signedInf, h0, h1]
  | nzero => simp [div, isNaN, isInf, isZero]
  | pinf => simp [div, isNaN, isInf, isZero, signBit, signedInf]
  | ninf =>
    rcases hx with hx | hx
    · simp [isNaN] at hx
    · simp [zero, le] at hx
  | nan => simp [div, isNaN]

theorem le_trans {a b c : Dbl} (hab : le a b = true) (hbc : le b c = true) :
    le a c = true := by
  cases a <;> cases b <;> cases c <;> simp_all [le, val] <;> linarith

/-- A sum of two values `>= +0` is `>= +0`. -/
theorem add_nonneg {a c : Dbl} (ha : zero.le a = true) (hc : zero.le c = true) :
    zero.le (add a c) = true := by
  cases a <;> cases c <;> simp_all [le, add, val, zero]
  linarith

/-- Adding a value `>= +0` does not take a sum below a smaller start value. -/
theorem le_add_right {a1 a c : Dbl} (h0 : zero.le a1 = true) (h : le a1 a = true)
    (hc : zero.le c = true) : le a1 (add a c) = true := by
  cases a1 <;> cases a <;> cases c <;> simp_all [le, add, val, zero] <;> linarith

/-- Addition of a value `>= +0` is monotone in the other argument. -/
theorem add_le_add_right {a1 a c : Dbl} (h0 : zero.le a1 = true) (h : le a1 a = true)
    (hc : zero.le c = true) : le (add a1 c) (add a c) = true := by
  cases a1 <;> cases a <;> cases c <;> simp_all [le, add, val, zero]

/-- A value `>= +0` divided by a value `> +0` is `>= +0` or NaN. -/
theorem div_nonneg_or_nan {x d : Dbl} (hx : zero.le x = true) (hd : zero.lt d = true) :
    div x d = nan ∨ zero.le (div x d) = true := by
  cases d with
  | fin r =>
    simp only [zero, lt_fin_fin, decide_eq_true_eq] at hd
    have hr0 : r ≠ 0 := ne_of_gt hd
    have hr1 : ¬ r < 0 := not_lt.mpr hd.le
    cases x with
    | fin q =>
      simp only [zero, le_fin_fin, decide_eq_true_eq] at hx
      right
      rw [div_fin_pos q r hd]
      simp only [zero, le_fin_fin, decide_eq_true_eq]
      exact div_nonneg hx hd.le
    | nzero => right; simp [div, isNaN, isInf, isZero, signBit, signedZero, hr0, hr1, le, zero, val]
    | pinf => right; simp [div, isNaN, isInf, signBit, signedInf, hr1, le, zero]
    | ninf => simp [zero, le] at hx
    | nan => simp [zero, le] at hx
  | nzero => simp [zero, lt, val] at hd
  | pinf =>
    cases x with
    | fin q =>
      simp only [zero, le_fin_fin, decide_eq_true_eq] at hx
      have h1 : ¬ q < 0 := not_lt.mpr hx
      right
      simp [div, isNaN, isInf, signBit, signedZero, h1, zero]
    | nzero => right; simp [div, isNaN, isInf, signBit, signedZero, le, zero, val]
    | pinf => left; simp [div, isNaN, isInf]
    | ninf => simp [zero, le] at hx
    | nan => simp [zero, le] at hx
  | ninf => simp [zero, lt] at hd
  | nan => simp [zero, lt] at hd

end Dbl

/-- Once the running ratio is NaN it stays NaN. -/
theorem overlapLoop_nan (A : AreaFn) (I : IntersectFn) (R : ConvexHull) (P : List ConvexHull) :
    overlapLoop A I R P Dbl.nan = Dbl.nan := by
  rw [overlapLoop_eq_foldl]
  induction P.filterMap (specContribution A I R) with
  | nil => rfl
  | cons c cs ih => simpa [List.foldl_cons] using ih

/-- If every quotient the loop adds lies in a set `S` that absorbs addition from the
right, and the loop adds at least one quotient (or starts in `S`), its result is in
`S`. -/
theorem overlapLoop_absorbing (A : AreaFn) (I : IntersectFn) (R : ConvexHull)
    (S : Dbl → Prop) (hS : ∀ a c, S c → S (Dbl.add a c)) (P : List ConvexHull)
    (hc : ∀ O ∈ P, R.id ≠ O.id → ∀ X, I R O = some X → S ((A X).div (A R)))
    (acc : Dbl) (h : S acc ∨ ∃ O ∈ P, R.id ≠ O.id ∧ ∃ X, I R O = some X) :
    S (overlapLoop A I R P acc) := by
  induction P generalizing acc with
  | nil =>
    rcases h with h | ⟨O, hO, _⟩
    · exact h
    · simp at hO
  | cons O rest ih =>
    have hc2 : ∀ O1 ∈ rest, R.id ≠ O1.id → ∀ X, I R O1 = some X → S ((A X).div (A R)) :=
      fun O1 hO1 => hc O1 (by simp [hO1])
    by_cases hid : R.id = O.id
    · rw [overlapLoop_skip A I R O rest acc (Or.inl hid)]
      apply ih hc2
      rcases h with h | ⟨O1, hO1, hne, hX⟩
      · exact Or.inl h
      · rcases List.mem_cons.mp hO1 with rfl | hmem
        · exact absurd hid hne
        · exact Or.inr ⟨O1, hmem, hne, hX⟩
    · cases hI : I R O with
      | none =>
        rw [overlapLoop_skip A I R O rest acc (Or.inr hI)]
        apply ih hc2
        rcases h with h | ⟨O1, hO1, hne, X, hX⟩
        · exact Or.inl h
        · rcases List.mem_cons.mp hO1 with rfl | hmem
          · rw [hI] at hX
            cases hX
          · exact Or.inr ⟨O1, hmem, hne, X, hX⟩
      | some X =>
        rw [overlapLoop_step A I R O X rest acc hid hI]
        apply ih hc2
        exact Or.inl (hS _ _ (hc O (by simp) hid X hI))

/-- Removing hulls from the input, and starting from a smaller value `>= +0`, does
not take the loop above a bound it respected, when every quotient is `>= +0` or
NaN. -/
theorem overlapLoop_sublist_le (A : AreaFn) (I : IntersectFn) (R : ConvexHull) (b : Dbl)
    {Q P : List ConvexHull} (hsub : Q.Sublist P)
    (hc : ∀ O ∈ P, R.id ≠ O.id → ∀ X, I R O = some X →
      (A X).div (A R) = Dbl.nan ∨ Dbl.zero.le ((A X).div (A R)) = true)
    (acc1 acc : Dbl) (h0 : Dbl.zero.le acc1 = true) (hle : acc1.le acc = true)
    (hb : (overlapLoop A I R P acc).le b = true) :
    (overlapLoop A I R Q acc1).le b = true := by
  induction hsub generalizing acc1 acc with
  | slnil => exact Dbl.le_trans hle hb
  | @cons Q1 P1 O _ ih =>
    have hc2 : ∀ O1 ∈ P1, R.id ≠ O1.id → ∀ X, I R O1 = some X →
        (A X).div (A R) = Dbl.nan ∨ Dbl.zero.le ((A X).div (A R)) = true :=
      fun O1 hO1 => hc O1 (by simp [hO1])
    by_cases hid : R.id = O.id
    · rw [overlapLoop_skip A I R O P1 acc (Or.inl hid)] at hb
      exact ih hc2 acc1 acc h0 hle hb
    · cases hI : I R O with
      | none =>
        rw [overlapLoop_skip A I R O P1 acc (Or.inr hI)] at hb
        exact ih hc2 acc1 acc h0 hle hb
      | some X =>
        rw [overlapLoop_step A I R O X P1 acc hid hI] at hb
        rcases hc O (by simp) hid X hI with hn | hn
        · rw [hn, Dbl.add_nan_right, overlapLoop_nan, Dbl.le_nan_left] at hb
          exact absurd hb Bool.false_ne_true
        · exact ih hc2 acc1 _ h0 (Dbl.le_add_right h0 hle hn) hb
  | @cons₂ Q1 P1 O _ ih =>
    have hc2 : ∀ O1 ∈ P1, R.id ≠ O1.id → ∀ X, I R O1 = some X →
        (A X).div (A R) = Dbl.nan ∨ Dbl.zero.le ((A X).div (A R)) = true :=
      fun O1 hO1 => hc O1 (by simp [hO1])
    by_cases hid : R.id = O.id
    · rw [overlapLoop_skip A I R O P1 acc (Or.inl hid)] at hb
      rw [overlapLoop_skip A I R O Q1 acc1 (Or.inl hid)]
      exact ih hc2 acc1 acc h0 hle hb
    · cases hI : I R O with
      | none =>
        rw [overlapLoop_skip A I R O P1 acc (Or.inr hI)] at hb
        rw [overlapLoop_skip A I R O Q1 acc1 (Or.inr hI)]
        exact ih hc2 acc1 acc h0 hle hb
      | some X =>
        rw [overlapLoop_step A I R O X P1 acc hid hI] at hb
        rw [overlapLoop_step A I R O X Q1 acc1 hid hI]
        rcases hc O (by simp) hid X hI with hn | hn
        · rw [hn, Dbl.add_nan_right, overlapLoop_nan, Dbl.le_nan_left] at hb
          exact absurd hb Bool.false_ne_true
        · exact ih hc2 _ _ (Dbl.add_nonneg h0 hn) (Dbl.add_le_add_right h0 hle hn) hb

/-! ## Zero areas and idempotence -/

/-- C3, as the code has it: for a reference polygon `R` whose area is a zero, the
quotient `area(intersection) / area(R)` is computed with the zero divisor for every
element with another ID whose intersection with `R` is reported non-empty, and is
NaN or an infinity (IEEE-754; nothing traps). The ratio of `R` is `0`, and `R` is
kept, when no such element exists; it is NaN or an infinity as soon as one exists;
and then, when the area of `R` is `+0` and the areas of the intersections are
`>= 0` or NaN, the ratio is NaN or `+inf` and `R` is eliminated. -/
theorem zero_area_reference (GetArea : AreaFn) (ConvexHullIntersection : IntersectFn)
    (P : List ConvexHull) (R : ConvexHull) (hz : (GetArea R).isZero = true) :
    (∀ x : Dbl, x.div (GetArea R) = Dbl.nan ∨ x.div (GetArea R) = Dbl.pinf
        ∨ x.div (GetArea R) = Dbl.ninf)
    ∧ ((∀ O ∈ P, R.id = O.id ∨ ConvexHullIntersection R O = none) →
        overlapRatio GetArea ConvexHullIntersection P R = Dbl.fin 0
        ∧ (R ∈ P → R ∈ FilterConvexHulls GetArea ConvexHullIntersection P []))
    ∧ ((∃ O ∈ P, R.id ≠ O.id ∧ ∃ X, ConvexHullIntersection R O = some X) →
        overlapRatio GetArea ConvexHullIntersection P R = Dbl.nan
        ∨ overlapRatio GetArea ConvexHullIntersection P R = Dbl.pinf
        ∨ overlapRatio GetArea ConvexHullIntersection P R = Dbl.ninf)
    ∧ ((∃ O ∈ P, R.id ≠ O.id ∧ ∃ X, ConvexHullIntersection R O = some X) →
        GetArea R = Dbl.fin 0 →
        (∀ O ∈ P, R.id ≠ O.id → ∀ X, ConvexHullIntersection R O = some X →
          (GetArea X).isNaN = true ∨ Dbl.zero.le (GetArea X) = true) →
        (overlapRatio GetArea ConvexHullIntersection P R = Dbl.nan
          ∨ overlapRatio GetArea ConvexHullIntersection P R = Dbl.pinf)
        ∧ R ∉ FilterConvexHulls GetArea ConvexHullIntersection P []) := by
  refine ⟨fun x => Dbl.div_zero_special x _ hz, ?_, ?_, ?_⟩
  · intro hnone
    have hr := overlapRatio_zero_of_inert GetArea ConvexHullIntersection P R hnone
    refine ⟨hr, fun hR => ?_⟩
    rw [FilterConvexHulls_eq, List.nil_append, List.mem_filter, hr]
    exact ⟨hR, Dbl.le_zero_half⟩
  · intro hex
    exact overlapLoop_absorbing GetArea ConvexHullIntersection R
      (fun d => d = Dbl.nan ∨ d = Dbl.pinf ∨ d = Dbl.ninf)
      (fun a _ hc => Dbl.add_special_right a hc) P
      (fun _ _ _ X _ => Dbl.div_zero_special (GetArea X) _ hz) Dbl.zero (Or.inr hex)
  · intro hex hpz hareas
    have hr : overlapRatio GetArea ConvexHullIntersection P R = Dbl.nan
        ∨ overlapRatio GetArea ConvexHullIntersection P R = Dbl.pinf :=
      overlapLoop_absorbing GetArea ConvexHullIntersection R
        (fun d => d = Dbl.nan ∨ d = Dbl.pinf)
        (fun a _ hc => Dbl.add_nan_or_pinf_right a hc) P
        (fun O hO hid X hX => by
          rw [hpz]
          exact Dbl.div_pzero_nan_or_pinf (hareas O hO hid X hX))
        Dbl.zero (Or.inr hex)
    refine ⟨hr, fun hin => ?_⟩
    rw [FilterConvexHulls_eq, List.nil_append, List.mem_filter] at hin
    rcases hr with hr | hr <;> rw [hr] at hin <;> simp [Dbl.le, Dbl.half] at hin

/-- C3 at a concrete input: the flat hull of area 0 inside the unit square: its
ratio is NaN or an infinity, and it is eliminated. -/
theorem zero_area_reference_witness :
    (shoelaceArea flatHull).isZero = true
    ∧ (overlapRatio shoelaceArea boxIntersection [flatHull, square1] flatHull = Dbl.nan
        ∨ overlapRatio shoelaceArea boxIntersection [flatHull, square1] flatHull = Dbl.pinf)
    ∧ flatHull ∉ FilterConvexHulls shoelaceArea boxIntersection [flatHull, square1] [] := by
  have hz : (shoelaceArea flatHull).isZero = true := by
    rw [area_flatHull]
    simp [Dbl.isZero]
  have h := (zero_area_reference shoelaceArea boxIntersection [flatHull, square1] flatHull
    hz).2.2.2
      ⟨square1, by simp, by decide, _, inter_flatHull_square1⟩ area_flatHull
      (by
        intro O hO hid X hX
        simp only [List.mem_cons, List.mem_singleton, List.not_mem_nil, or_false] at hO
        rcases hO with rfl | rfl
        · exact absurd rfl hid
        · rw [inter_flatHull_square1] at hX
          cases hX
          right
          rw [area_flatBox]
          simp [Dbl.zero])
  exact ⟨hz, h.1, h.2⟩

/-- C3 fails as stated: the hull `flatHull` (three collinear vertices, area `0`)
lies inside the unit square `(0,0)-(1,1)`, the intersection is reported non-empty
with area `0`, the quotient `0 / 0` is computed and is NaN, the ratio of the flat
hull is NaN instead of `0`, and the flat hull is eliminated. -/
theorem zero_area_division_is_performed :
    shoelaceArea flatHull = Dbl.fin 0
    ∧ boxIntersection flatHull square1 = some (rect 0 (1 / 4) (1 / 2) (3 / 4) (1 / 2))
    ∧ (shoelaceArea (rect 0 (1 / 4) (1 / 2) (3 / 4) (1 / 2))).div (shoelaceArea flatHull)
        = Dbl.nan
    ∧ overlapRatio shoelaceArea boxIntersection [flatHull, square1] flatHull = Dbl.nan
    ∧ overlapRatio shoelaceArea boxIntersection [flatHull, square1] flatHull ≠ Dbl.fin 0
    ∧ FilterConvexHulls shoelaceArea boxIntersection [flatHull, square1] [] = [square1] := by
  have hid : flatHull.id ≠ square1.id := by decide
  have q : (shoelaceArea (rect 0 (1 / 4) (1 / 2) (3 / 4) (1 / 2))).div (shoelaceArea flatHull)
      = Dbl.nan := by
    rw [area_flatBox, area_flatHull]
    simp [Dbl.div, Dbl.isNaN, Dbl.isInf, Dbl.isZero]
  have r1 : overlapRatio shoelaceArea boxIntersection [flatHull, square1] flatHull
      = Dbl.nan := by
    rw [overlapRatio_pair_fst _ _ _ _ _ hid inter_flatHull_square1, q]
    rfl
  have r2 : overlapRatio shoelaceArea boxIntersection [flatHull, square1] square1
      = Dbl.fin 0 := by
    rw [overlapRatio_pair_snd _ _ _ _ _ hid inter_square1_flatHull, area_flatBox,
      show square1 = rect 1 0 0 1 1 from rfl, area_unit 1, Dbl.div_fin_pos _ _ one_pos]
    simp [Dbl.zero]
  refine ⟨area_flatHull, inter_flatHull_square1, q, r1, ?_, ?_⟩
  · rw [r1]
    simp
  · rw [FilterConvexHulls_eq]
    simp [List.filter_cons, r1, r2, Dbl.half]

/-- C9: `FilterConvexHulls` is idempotent when the areas are well-behaved: for every
input list `P` in which every polygon has a positive area and every intersection
the filter asks for (between elements with different IDs) has a non-negative area,
filtering the output again returns the same list, because a polygon kept for `P` is
kept for every sublist of `P` that contains it. -/
theorem FilterConvexHulls_idempotent (GetArea : AreaFn) (ConvexHullIntersection : IntersectFn)
    (P : List ConvexHull)
    (hpos : ∀ R ∈ P, Dbl.zero.lt (GetArea R) = true)
    (hnn : ∀ R ∈ P, ∀ O ∈ P, R.id ≠ O.id → ∀ X, ConvexHullIntersection R O = some X →
      Dbl.zero.le (GetArea X) = true) :
    FilterConvexHulls GetArea ConvexHullIntersection
        (FilterConvexHulls GetArea ConvexHullIntersection P []) []
      = FilterConvexHulls GetArea ConvexHullIntersection P []
    ∧ (∀ Q : List ConvexHull, Q.Sublist P → ∀ R ∈ Q,
        (overlapRatio GetArea ConvexHullIntersection P R).le Dbl.half = true →
        (overlapRatio GetArea ConvexHullIntersection Q R).le Dbl.half = true)
    ∧ (∀ Q : List ConvexHull, Q.Sublist P → ∀ R ∈ Q,
        R ∈ FilterConvexHulls GetArea ConvexHullIntersection P [] →
        R ∈ FilterConvexHulls GetArea ConvexHullIntersection Q []) := by
  have hmono : ∀ Q : List ConvexHull, Q.Sublist P → ∀ R ∈ Q,
      (overlapRatio GetArea ConvexHullIntersection P R).le Dbl.half = true →
      (overlapRatio GetArea ConvexHullIntersection Q R).le Dbl.half = true := by
    intro Q hsub R hRQ hkept
    have hRP : R ∈ P := hsub.subset hRQ
    exact overlapLoop_sublist_le GetArea ConvexHullIntersection R Dbl.half hsub
      (fun O hO hid X hX => Dbl.div_nonneg_or_nan (hnn R hRP O hO hid X hX) (hpos R hRP))
      Dbl.zero Dbl.zero (by simp [Dbl.zero]) (by simp [Dbl.zero]) hkept
  refine ⟨?_, hmono, ?_⟩
  · rw [FilterConvexHulls_eq, FilterConvexHulls_eq, List.nil_append, List.nil_append]
    apply List.filter_eq_self.mpr
    intro R hR
    exact hmono _ (List.filter_sublist _) R hR (List.mem_filter.mp hR).2
  · intro Q hsub R hRQ hin
    rw [FilterConvexHulls_eq, List.nil_append, List.mem_filter] at hin ⊢
    exact ⟨hRQ, hmono Q hsub R hRQ hin.2⟩

/-- C9 at a concrete input: of the unit squares `(0,0)-(1,1)`, `(0.25,0)-(1.25,1)`
and `(2,2)-(3,3)` the first two eliminate each other and the third is kept; filtering
the output `[square3]` again returns it. -/
theorem FilterConvexHulls_idempotent_witness :
    FilterConvexHulls shoelaceArea boxIntersection [square1, shifted, square3] [] = [square3]
    ∧ FilterConvexHulls shoelaceArea boxIntersection
        (FilterConvexHulls shoelaceArea boxIntersection [square1, shifted, square3] []) []
      = FilterConvexHulls shoelaceArea boxIntersection [square1, shifted, square3] [] := by
  have h := FilterConvexHulls_idempotent shoelaceArea boxIntersection
    [square1, shifted, square3]
    (by
      intro R hR
      simp only [List.mem_cons, List.mem_singleton, List.not_mem_nil, or_false] at hR
      rcases hR with rfl | rfl | rfl
      · rw [show square1 = rect 1 0 0 1 1 from rfl, area_unit]; simp [Dbl.zero]
      · rw [show shifted = rect 2 (1 / 4) 0 (5 / 4) 1 from rfl, area_shifted]; simp [Dbl.zero]
      · rw [area_square3]; simp [Dbl.zero])
    (by
      intro R hR O hO hid X hX
      simp only [List.mem_cons, List.mem_singleton, List.not_mem_nil, or_false] at hR hO
      rcases hR with rfl | rfl | rfl <;> rcases hO with rfl | rfl | rfl
      · exact absurd rfl hid
      · rw [inter_square1_shifted] at hX; cases hX
        rw [area_threeQuarterBox]; norm_num [Dbl.zero]
      · rw [inter_square1_square3] at hX; cases hX
      · rw [inter_shifted_square1] at hX; cases hX
        rw [area_threeQuarterBox]; norm_num [Dbl.zero]
      · exact absurd rfl hid
      · rw [inter_shifted_square3] at hX; cases hX
      · rw [inter_square3_square1] at hX; cases hX
      · rw [inter_square3_shifted] at hX; cases hX
      · exact absurd rfl hid)
  refine ⟨?_, h.1⟩
  have r1 : (overlapRatio shoelaceArea boxIntersection [square1, shifted, square3]
      square1).le Dbl.half = false := by
    unfold overlapRatio
    rw [overlapLoop_skip _ _ square1 square1 _ _ (Or.inl rfl),
      overlapLoop_step _ _ square1 shifted _ _ _ (by decide) inter_square1_shifted,
      overlapLoop_skip _ _ square1 square3 _ _ (Or.inr inter_square1_square3),
      area_threeQuarterBox, show square1 = rect 1 0 0 1 1 from rfl, area_unit,
      Dbl.div_fin_pos _ _ one_pos]
    norm_num [overlapLoop, Dbl.zero, Dbl.half]
  have r2 : (overlapRatio shoelaceArea boxIntersection [square1, shifted, square3]
      shifted).le Dbl.half = false := by
    unfold overlapRatio
    rw [overlapLoop_step _ _ shifted square1 _ _ _ (by decide) inter_shifted_square1,
      overlapLoop_skip _ _ shifted shifted _ _ (Or.inl rfl),
      overlapLoop_skip _ _ shifted square3 _ _ (Or.inr inter_shifted_square3),
      area_threeQuarterBox, show shifted = rect 2 (1 / 4) 0 (5 / 4) 1 from rfl, area_shifted,
      Dbl.div_fin_pos _ _ one_pos]
    norm_num [overlapLoop, Dbl.zero, Dbl.half]
  have r3 : (overlapRatio shoelaceArea boxIntersection [square1, shifted, square3]
      square3).le Dbl.half = true := by
    unfold overlapRatio
    rw [overlapLoop_skip _ _ square3 square1 _ _ (Or.inr inter_square3_square1),
      overlapLoop_skip _ _ square3 shifted _ _ (Or.inr inter_square3_shifted),
      overlapLoop_skip _ _ square3 square3 _ _ (Or.inl rfl)]
    exact Dbl.le_zero_half
  rw [FilterConvexHulls_eq]
  simp [List.filter_cons, r1, r2, r3]

end FCH
